import Mathlib

/-!
Verification of the conservative resource-analysis engine of a syscall-program
generator (`prog/analysis.go`): resource/memory analysis state, argument-tree
traversal, size-field resolution, and the per-call sanitizer.

The argument tree, call and program data model is shared with the rest of the
repository; the fields and variants embedded here are exactly the ones the
analysis engine reads or writes.
-/

set_option maxHeartbeats 1000000

namespace Syz

/-- Direction of an argument: input, output or in-out (sys.Dir). -/
inductive Dir where
  | dirIn
  | dirOut
  | dirInOut
deriving DecidableEq, Repr

/-- Semantic kind of a buffer type (sys.BufferType.Kind). -/
inductive BufferKind where
  | bufferBlob
  | bufferString
  | bufferFilename
  | bufferSockaddr
deriving DecidableEq, Repr

/-- The classification of a type descriptor, with the per-variant payload the
analysis reads: resource kind name (sys.ResourceType.Desc.Name), buffer
semantic kind, length reference target and byte stride (sys.LenType.Buf,
sys.LenType.ByteSize).  `pad` marks a padding constant (sys.IsPad). -/
inductive TypeKind where
  | resource (kindName : String)
  | buffer (bk : BufferKind)
  | len (buf : String) (byteSize : Nat)
  | vma
  | array
  | structT
  | union
  | pointer
  | pad
  | other
deriving DecidableEq, Repr

/-- A type descriptor: name (sys.Type.Name()), direction (sys.Type.Dir()),
declared byte width for scalar types, and the classification payload. -/
structure ArgType where
  name : String
  dir : Dir
  tsize : Nat
  kind : TypeKind
deriving DecidableEq, Repr

/-- The Kind tag of an argument node (ArgConst, ArgPointer, ...). -/
inductive ArgKind where
  | argConst
  | argResult
  | argPointer
  | argPageSize
  | argData
  | argGroup
  | argUnion
  | argReturn
deriving DecidableEq, Repr

/-- An argument node (prog.Arg): type descriptor, kind tag, numeric value,
page address / intra-page offset / page count, raw data payload, child nodes
(`inner`), pointee (`res`, for pointer nodes) and selected union variant
(`opt`, for union nodes). -/
inductive Arg where
  | mk (typ : ArgType) (kind : ArgKind) (val : Nat) (addrPage : Nat)
      (addrOffset : Nat) (addrPagesNum : Nat) (data : List Nat)
      (inner : List Arg) (res : Option Arg) (opt : Option Arg)

mutual

/-- Decidable structural equality for argument nodes. -/
def Arg.decEq : (a b : Arg) → Decidable (a = b)
  | .mk t1 k1 v1 p1 o1 pn1 d1 i1 r1 u1, .mk t2 k2 v2 p2 o2 pn2 d2 i2 r2 u2 =>
    if h : t1 = t2 ∧ k1 = k2 ∧ v1 = v2 ∧ p1 = p2 ∧ o1 = o2 ∧ pn1 = pn2 ∧ d1 = d2 then
      match Arg.decEqList i1 i2 with
      | isFalse hi => isFalse (by intro he; cases he; exact hi rfl)
      | isTrue hi =>
        match Arg.decEqOpt r1 r2 with
        | isFalse hr => isFalse (by intro he; cases he; exact hr rfl)
        | isTrue hr =>
          match Arg.decEqOpt u1 u2 with
          | isFalse hu => isFalse (by intro he; cases he; exact hu rfl)
          | isTrue hu =>
            isTrue (by
              obtain ⟨rfl, rfl, rfl, rfl, rfl, rfl, rfl⟩ := h
              rw [hi, hr, hu])
    else isFalse (by intro he; cases he; exact h ⟨rfl, rfl, rfl, rfl, rfl, rfl, rfl⟩)

def Arg.decEqList : (as bs : List Arg) → Decidable (as = bs)
  | [], [] => isTrue rfl
  | [], _ :: _ => isFalse (fun he => List.noConfusion he)
  | _ :: _, [] => isFalse (fun he => List.noConfusion he)
  | a :: as, b :: bs =>
    match Arg.decEq a b with
    | isFalse h => isFalse (by intro he; cases he; exact h rfl)
    | isTrue h1 =>
      match Arg.decEqList as bs with
      | isFalse h => isFalse (by intro he; cases he; exact h rfl)
      | isTrue h2 => isTrue (by rw [h1, h2])

def Arg.decEqOpt : (x y : Option Arg) → Decidable (x = y)
  | none, none => isTrue rfl
  | none, some _ => isFalse (fun he => Option.noConfusion he)
  | some _, none => isFalse (fun he => Option.noConfusion he)
  | some a, some b =>
    match Arg.decEq a b with
    | isTrue h => isTrue (by rw [h])
    | isFalse h => isFalse (by intro he; cases he; exact h rfl)

end

instance : DecidableEq Arg := Arg.decEq

def Arg.typ : Arg → ArgType
  | .mk t _ _ _ _ _ _ _ _ _ => t

def Arg.kind : Arg → ArgKind
  | .mk _ k _ _ _ _ _ _ _ _ => k

def Arg.val : Arg → Nat
  | .mk _ _ v _ _ _ _ _ _ _ => v

def Arg.addrPage : Arg → Nat
  | .mk _ _ _ p _ _ _ _ _ _ => p

def Arg.addrOffset : Arg → Nat
  | .mk _ _ _ _ o _ _ _ _ _ => o

def Arg.addrPagesNum : Arg → Nat
  | .mk _ _ _ _ _ pn _ _ _ _ => pn

def Arg.data : Arg → List Nat
  | .mk _ _ _ _ _ _ d _ _ _ => d

def Arg.inner : Arg → List Arg
  | .mk _ _ _ _ _ _ _ i _ _ => i

def Arg.res : Arg → Option Arg
  | .mk _ _ _ _ _ _ _ _ r _ => r

def Arg.opt : Arg → Option Arg
  | .mk _ _ _ _ _ _ _ _ _ u => u

/-- Overwrite the numeric value of a node, keeping everything else. -/
def Arg.setVal (a : Arg) (v : Nat) : Arg :=
  match a with
  | .mk t k _ p o pn d i r u => .mk t k v p o pn d i r u

/-- Syscall metadata: full name (sys.Call.Name) and call name with the
variant suffix stripped (sys.Call.CallName). -/
structure CallMeta where
  name : String
  callName : String
deriving DecidableEq, Repr

/-- One syscall invocation: metadata, argument nodes, optional return node. -/
structure Call where
  meta : CallMeta
  args : List Arg
  ret : Option Arg
deriving DecidableEq

/-- A program: an ordered sequence of calls. -/
structure Prog where
  calls : List Call
deriving DecidableEq

/-- The choice table is opaque to the analysis: it is stored in the state and
never read by any operation embedded here. -/
structure ChoiceTable where
deriving DecidableEq

/-- Whether a type classification is a buffer. -/
def TypeKind.isBuffer : TypeKind → Bool
  | .buffer _ => true
  | _ => false

mutual

/-- Modelled from the spec: byte size of an argument (prog.Arg.Size, declared
outside the analysis file).  An array or struct occupies the bytes of its
fields, a buffer occupies its payload bytes, a union occupies its selected
variant, and any other field contributes its declared byte width. -/
def Arg.size : Arg → Nat
  | .mk t _ _ _ _ _ d i _ u =>
    if t.kind = .array ∨ t.kind = .structT then Arg.sizeList i
    else if t.kind.isBuffer then d.length
    else if t.kind = .union then Arg.sizeOpt u
    else t.tsize

def Arg.sizeOpt : Option Arg → Nat
  | some v => v.size
  | none => 0

def Arg.sizeList : List Arg → Nat
  | [] => 0
  | a :: rest => a.size + Arg.sizeList rest

end

mutual

/-- Modelled from the spec: prog.Arg.InnerArg (declared outside the analysis
file) resolves pointer indirection: a pointer node stands for its pointee,
recursively; a pointer with no pointee (optional, absent) resolves to nothing.
Any other node resolves to itself. -/
def Arg.innerArg : Arg → Option Arg
  | .mk t k v p o pn d i r u =>
    if t.kind = .pointer then Arg.innerArgOpt r
    else some (.mk t k v p o pn d i r u)

def Arg.innerArgOpt : Option Arg → Option Arg
  | some x => x.innerArg
  | none => none

end

mutual

/-- In-place overwrite of the node `Arg.innerArg` resolves to: writing through
the pointer chain, as Go's `*arg = ...` does after `arg = arg.InnerArg()`.
If the chain ends in an absent pointee the argument is left unchanged. -/
def Arg.setInnerArg : Arg → Arg → Arg
  | .mk t k v p o pn d i r u, w =>
    if t.kind = .pointer then .mk t k v p o pn d i (Arg.setInnerArgOpt r w) u
    else w

def Arg.setInnerArgOpt : Option Arg → Arg → Option Arg
  | some x, w => some (x.setInnerArg w)
  | none, _ => none

end

mutual

/-- The nodes visited by `foreachSubargImpl`, in visit order: the node itself,
then its `Inner` children, then the pointee of a pointer node, then the
selected option of a union node. -/
def Arg.collect : Arg → List Arg
  | .mk t k v p o pn d i r u =>
    .mk t k v p o pn d i r u ::
      (Arg.collectList i ++
        (if k = .argPointer then Arg.collectOpt r else []) ++
        (if k = .argUnion then Arg.collectOpt u else []))

def Arg.collectOpt : Option Arg → List Arg
  | some x => x.collect
  | none => []

def Arg.collectList : List Arg → List Arg
  | [] => []
  | a :: rest => a.collect ++ Arg.collectList rest

end

/-- The nodes visited by `foreachArgArray`: every top-level argument's subtree
in order, then the return value's subtree when one is passed. -/
def collectArgArray (args : List Arg) (ret : Option Arg) : List Arg :=
  Arg.collectList args ++
    (match ret with
      | some r => r.collect
      | none => [])

/-- The nodes visited by `foreachArg`: it invokes `foreachArgArray` with no
return value (`foreachArgArray(&c.Args, nil, f)`). -/
def collectArg (c : Call) : List Arg :=
  collectArgArray c.args none

/-! ### External constants (modelled from the sys package, not under src/) -/

def maxPages : Nat := 4 <<< 10
def uintptrMax : Nat := 2 ^ 64 - 1
def MAP_ANONYMOUS : Nat := 0x20
def MAP_FIXED : Nat := 0x10
def InvalidFD : Nat := uintptrMax
def S_IFREG : Nat := 0x8000
def S_IFIFO : Nat := 0x1000
def S_IFSOCK : Nat := 0xC000
def S_IFBLK : Nat := 0x6000
def SYSLOG_ACTION_CONSOLE_OFF : Nat := 6
def SYSLOG_ACTION_CONSOLE_ON : Nat := 7
def SYSLOG_ACTION_SIZE_UNREAD : Nat := 9
def FIFREEZE : Nat := 0xC0045877
def FITHAW : Nat := 0xC0045878
def MREMAP_MAYMOVE : Nat := 1
def MREMAP_FIXED : Nat := 2
def PTRACE_TRACEME : Nat := 0

/-! ### Resource/memory analysis state (prog.state) -/

/-- The analysis state: choice table, observed filenames and strings, the
available resource-producing nodes per resource-kind name, and the per-page
mapped bitmap of `maxPages` entries. -/
structure state where
  ct : ChoiceTable
  files : List (List Nat)
  resources : String → List Arg
  strings : List (List Nat)
  pages : Nat → Bool

/-- prog.newState: empty maps, all pages unmapped. -/
def newState (ct : ChoiceTable) : state :=
  { ct := ct
    files := []
    resources := fun _ => []
    strings := []
    pages := fun _ => false }

/-- Append one producing node under a resource-kind name. -/
def state.addResource (s : state) (kn : String) (a : Arg) : state :=
  { s with resources := fun k => if k = kn then s.resources k ++ [a] else s.resources k }

/-- The per-node step of `state.analyze`'s `foreachArgArray` callback:
resource-typed nodes whose direction is not pure-input are registered as
producers; buffer-typed data nodes with non-empty payload and direction other
than pure-output are recorded under `strings` or `files` by semantic kind. -/
def state.observeArg (s : state) (a : Arg) : state :=
  match a.typ.kind with
  | .resource kn =>
    if a.typ.dir ≠ .dirIn then s.addResource kn a else s
  | .buffer bk =>
    if a.typ.dir ≠ .dirOut ∧ a.kind = .argData ∧ a.data ≠ [] then
      match bk with
      | .bufferString => { s with strings := s.strings ++ [a.data] }
      | .bufferFilename => { s with files := s.files ++ [a.data] }
      | _ => s
    else s
  | _ => s

/-- The page-update loop of `state.addressable`: set `n` consecutive pages
starting at `base` to `ok`. -/
def setPagesLoop (pages : Nat → Bool) (base : Nat) (ok : Bool) : Nat → (Nat → Bool)
  | 0 => pages
  | n + 1 => setPagesLoop (fun j => if j = base then ok else pages j) (base + 1) ok n

/-- The number of pages a page-size argument covers: its whole-page count,
plus one if it carries a non-zero intra-page byte offset. -/
def pageCount (size : Arg) : Nat :=
  size.addrPage + (if size.addrOffset ≠ 0 then 1 else 0)

/-- prog.state.addressable: kind mismatches and ranges beyond the page-table
bound are fatal (`none` models the Go panic). -/
def state.addressable (s : state) (addr size : Arg) (ok : Bool) : Option state :=
  if addr.kind = .argPointer ∧ size.kind = .argPageSize then
    if addr.addrPage + pageCount size > maxPages then none
    else some { s with pages := setPagesLoop s.pages addr.addrPage ok (pageCount size) }
  else none

/-- One element step of the io_submit special case: a pointer element whose
pointee is of type "iocb" is registered under the ad hoc kind "iocbptr". -/
def state.ioStep (s1 : state) (ptr : Arg) : state :=
  if ptr.kind = .argPointer then
    match ptr.res with
    | some x => if x.typ.name = "iocb" then s1.addResource "iocbptr" ptr else s1
    | none => s1
  else s1

/-- The io_submit special case: register every "iocb"-pointing element of the
control-block array. -/
def state.addIocbPtrs (s : state) (arr : Arg) : state :=
  arr.inner.foldl state.ioStep s

/-- prog.state.analyze: observe one call.  All nodes reachable through
`foreachArgArray` (arguments and return value) feed the resource, string and
filename records; then the mmap/munmap/mremap special cases update the page
bitmap and io_submit registers control-block pointers.  `none` models a Go
panic (argument-kind mismatch, missing argument, page range out of bounds). -/
def state.analyze (s : state) (c : Call) : Option state :=
  let sf := (collectArgArray c.args c.ret).foldl state.observeArg s
  match c.meta.name with
  | "mmap" =>
    (match c.args[1]? with
      | none => none
      | some length =>
        if length.addrPage = 0 ∧ length.addrOffset = 0 then some sf
        else
          match c.args[4]? with
          | none => none
          | some flags =>
            match c.args[3]? with
            | none => none
            | some fd =>
              if flags.val &&& MAP_ANONYMOUS = 0 ∧ fd.kind = .argConst ∧ fd.val = InvalidFD then
                some sf
              else
                match c.args[0]? with
                | none => none
                | some addr => sf.addressable addr length true)
  | "munmap" =>
    (match c.args[0]? with
      | none => none
      | some addr =>
        match c.args[1]? with
        | none => none
        | some size => sf.addressable addr size false)
  | "mremap" =>
    (match c.args[4]? with
      | none => none
      | some addr =>
        match c.args[2]? with
        | none => none
        | some size => sf.addressable addr size true)
  | "io_submit" =>
    (match c.args[2]? with
      | none => none
      | some a2 =>
        match a2.res with
        | some arr => some (sf.addIocbPtrs arr)
        | none => some sf)
  | _ => some sf

/-- The prefix loop of prog.analyze: fold calls into the state, stopping at
the first call identical to `c`. -/
def analyzeLoop (s : state) (calls : List Call) (c : Call) : Option state :=
  match calls with
  | [] => some s
  | c1 :: rest =>
    if c1 = c then some s
    else
      match s.analyze c1 with
      | none => none
      | some s2 => analyzeLoop s2 rest c

/-- prog.analyze: analyze the program `p` up to but not including call `c`. -/
def analyze (ct : ChoiceTable) (p : Prog) (c : Call) : Option state :=
  analyzeLoop (newState ct) p.calls c

/-! ### Size-field resolution (prog.generateSize, prog.assignSizes) -/

/-- A constant argument holding value `v` (prog.constArg): all other node
fields are the Go zero values. -/
def constArg (t : ArgType) (v : Nat) : Arg :=
  .mk t .argConst v 0 0 0 [] [] none none

/-- A page-size argument of `np` pages and byte offset `off`
(prog.pageSizeArg). -/
def pageSizeArg (t : ArgType) (np off : Nat) : Arg :=
  .mk t .argPageSize 0 np off 0 [] [] none none

/-- prog.generateSize: the value for a length field of type `lenTyp` (whose
declared byte stride is `byteSize`) referencing the resolved target `o`.  An
absent optional target gives 0; a vma target gives its page count; an array
target gives its byte size divided by the stride, or its element count when no
stride is declared; anything else gives its byte size. -/
def generateSize (o : Option Arg) (lenTyp : ArgType) (byteSize : Nat) : Arg :=
  match o with
  | none => constArg lenTyp 0
  | some a =>
    match a.typ.kind with
    | .vma => pageSizeArg lenTyp a.addrPagesNum 0
    | .array =>
      if byteSize ≠ 0 then constArg lenTyp (a.size / byteSize)
      else constArg lenTyp a.inner.length
    | _ => constArg lenTyp a.size

/-- The args map of prog.assignSizes: field name to position, skipping padding
fields, later fields overwriting earlier ones of the same name (Go map
insertion order). -/
def buildArgsMap : List Arg → Nat → (String → Option Nat)
  | [], _ => fun _ => none
  | a :: rest, i =>
    let m := buildArgsMap rest (i + 1)
    if a.typ.kind = .pad then m
    else fun nm =>
      match m nm with
      | some j => some j
      | none => if nm = a.typ.name then some i else none

/-- One step of the fill loop of prog.assignSizes at position `i` of the
current field sequence `cur`.  A length field resolving to the sentinel
"parent" receives the pre-computed total `ps`; otherwise its target is looked
up in `am` and the field is overwritten with `generateSize`; a missing target
is fatal (`none` models the Go panic).  A field that is an absent optional
pointer, or not a length field, is left alone. -/
def fillStep (am : String → Option Nat) (ps : Nat) (cur : List Arg) (i : Nat) :
    Option (List Arg) :=
  match cur[i]? with
  | none => some cur
  | some a =>
    match a.innerArg with
    | none => some cur
    | some w =>
      match w.typ.kind with
      | .len buf bs =>
        if buf = "parent" then
          some (cur.set i (a.setInnerArg (w.setVal ps)))
        else
          match am buf with
          | none => none
          | some j =>
            match cur[j]? with
            | none => none
            | some bufArg =>
              some (cur.set i (a.setInnerArg (generateSize bufArg.innerArg w.typ bs)))
      | _ => some cur

/-- The fill loop of prog.assignSizes: run `fillStep` at positions
`i, i+1, ...` for `k` iterations (the Go `range` loop runs once per field of
the original sequence; every step preserves the sequence's length). -/
def fillSizes (am : String → Option Nat) (ps : Nat) : Nat → List Arg → Nat →
    Option (List Arg)
  | 0, cur, _ => some cur
  | k + 1, cur, i =>
    match fillStep am ps cur i with
    | none => none
    | some cur1 => fillSizes am ps k cur1 (i + 1)

/-- prog.assignSizes: compute the byte total of the whole sequence and the
name map, then fill in every length field in order. -/
def assignSizes (args : List Arg) : Option (List Arg) :=
  fillSizes (buildArgsMap args 0) (Arg.sizeList args) args.length args 0

/-! ### Call sanitizer (prog.sanitizeCall) -/

/-- Position of the mode argument of a device-node-creation call. -/
def mknodModeIdx (c : Call) : Nat :=
  if c.meta.callName = "mknodat" then 2 else 1

/-- prog.sanitizeCall: the per-syscall value-rewrite table, keyed by the
call name.  `none` models a Go panic (argument-kind mismatch or missing
argument); a call whose name matches no rule is returned unchanged. -/
def sanitizeCall (c : Call) : Option Call :=
  match c.meta.callName with
  | "mmap" =>
    (match c.args[0]? with
      | none => none
      | some addr =>
        if addr.kind = .argPointer then
          match c.args[1]? with
          | none => none
          | some length =>
            if length.kind = .argPageSize then
              match c.args[3]? with
              | none => none
              | some flags =>
                if flags.kind = .argConst then
                  some { c with args := c.args.set 3 (flags.setVal (flags.val ||| MAP_FIXED)) }
                else none
            else none
        else none)
  | "mremap" =>
    (match c.args[3]? with
      | none => none
      | some flags =>
        if flags.kind = .argConst then
          if flags.val &&& MREMAP_MAYMOVE ≠ 0 then
            some { c with args := c.args.set 3 (flags.setVal (flags.val ||| MREMAP_FIXED)) }
          else some c
        else none)
  | "mknod" | "mknodat" =>
    (match c.args[1]? with
      | none => none
      | some m1 =>
        match (if c.meta.callName = "mknodat" then c.args[2]? else some m1) with
        | none => none
        | some mode =>
          if mode.kind = .argConst then
            if mode.val ≠ S_IFREG ∧ mode.val ≠ S_IFIFO ∧ mode.val ≠ S_IFSOCK then
              some { c with args := c.args.set (mknodModeIdx c) (mode.setVal S_IFIFO) }
            else some c
          else none)
  | "syslog" =>
    (match c.args[0]? with
      | none => none
      | some cmd =>
        if cmd.val = SYSLOG_ACTION_CONSOLE_OFF ∨ cmd.val = SYSLOG_ACTION_CONSOLE_ON then
          some { c with args := c.args.set 0 (cmd.setVal SYSLOG_ACTION_SIZE_UNREAD) }
        else some c)
  | "ioctl" =>
    (match c.args[1]? with
      | none => none
      | some cmd =>
        if cmd.val % 2 ^ 32 = FIFREEZE then
          some { c with args := c.args.set 1 (cmd.setVal FITHAW) }
        else some c)
  | "ptrace" =>
    (match c.args[0]? with
      | none => none
      | some a0 =>
        if a0.val = PTRACE_TRACEME then
          some { c with args := c.args.set 0 (a0.setVal uintptrMax) }
        else some c)
  | "exit" | "exit_group" =>
    (match c.args[0]? with
      | none => none
      | some code =>
        if code.val % 128 = 67 ∨ code.val % 128 = 68 then
          some { c with args := c.args.set 0 (code.setVal 1) }
        else some c)
  | _ => some c

/-! ### Derived definitions used to state the verified properties -/

/-- Whether a node is registered as a resource producer of kind `k`:
resource-typed with that kind name, direction not pure-input. -/
def isResProducer (k : String) (a : Arg) : Bool :=
  match a.typ.kind with
  | .resource kn => decide (kn = k ∧ a.typ.dir ≠ .dirIn)
  | _ => false

/-- The resource-producing nodes of kind `k` among a node list, in order. -/
def resProducers (k : String) (l : List Arg) : List Arg :=
  l.filter (isResProducer k)

/-- The string payloads a node list contributes, in order: non-empty concrete
data of string-kind buffers whose direction is not pure-output. -/
def stringsOfNodes (l : List Arg) : List (List Nat) :=
  l.filterMap
    (fun a =>
      if a.typ.kind = .buffer .bufferString ∧ a.typ.dir ≠ .dirOut ∧
          a.kind = .argData ∧ a.data ≠ [] then
        some a.data
      else none)

/-- The filename payloads a node list contributes, in order. -/
def filesOfNodes (l : List Arg) : List (List Nat) :=
  l.filterMap
    (fun a =>
      if a.typ.kind = .buffer .bufferFilename ∧ a.typ.dir ≠ .dirOut ∧
          a.kind = .argData ∧ a.data ≠ [] then
        some a.data
      else none)

/-- Whether an array element is a pointer at an "iocb"-typed node. -/
def iocbPred (ptr : Arg) : Bool :=
  decide (ptr.kind = .argPointer) &&
    (match ptr.res with
      | some x => decide (x.typ.name = "iocb")
      | none => false)

/-- The pointer elements of an io_submit control-block array that point at an
"iocb"-typed node, in order. -/
def iocbPtrsOf (arr : Arg) : List Arg :=
  arr.inner.filter iocbPred

/-- Everything one observed call appends under resource kind `k`: its
resource-producing nodes in traversal order, then (for io_submit, under the
ad hoc kind "iocbptr") its registered control-block pointers. -/
def callProducers (c : Call) (k : String) : List Arg :=
  resProducers k (collectArgArray c.args c.ret) ++
    (if c.meta.name = "io_submit" ∧ k = "iocbptr" then
      match c.args[2]? with
      | some a2 =>
        match a2.res with
        | some arr => iocbPtrsOf arr
        | none => []
      | none => []
    else [])

/-- The strict prefix of the program before the first call identical to `c`. -/
def prefixBefore (p : Prog) (c : Call) : List Call :=
  p.calls.takeWhile (fun c1 => decide (c1 ≠ c))

/-- The claim's words for the resource map: exactly the resource-typed
argument nodes of kind `k` of calls strictly preceding `c`, with direction
output or in-out, in program order — and nothing else. -/
def resourceNodesSpec (p : Prog) (c : Call) (k : String) : List Arg :=
  (prefixBefore p c).flatMap (fun c1 => resProducers k (collectArgArray c1.args c1.ret))

/-- Reachability along the traversal edges: a node reaches itself, its
`Inner` children, the pointee of a pointer node and the selected option of a
union node, transitively. -/
inductive Reach : Arg → Arg → Prop where
  | refl (a : Arg) : Reach a a
  | inner {a b c : Arg} : b ∈ a.inner → Reach b c → Reach a c
  | res {a b c : Arg} : a.kind = .argPointer → a.res = some b → Reach b c → Reach a c
  | opt {a b c : Arg} : a.kind = .argUnion → a.opt = some b → Reach b c → Reach a c

/-- The attributes of a resolved length-target that `generateSize` can
observe: its type, and (by type class) its page count, byte size or element
count. -/
def gObs (w : Arg) : ArgType × Nat × Nat :=
  ⟨w.typ,
    match w.typ.kind with
    | .vma => (w.addrPagesNum, 0)
    | .array => (w.size, w.inner.length)
    | _ => (w.size, 0)⟩

/-- Equivalence of fields as the size-resolution pass observes them: same
type descriptor, same byte size, and the same resolved target observation. -/
def fillEquiv (a b : Arg) : Prop :=
  a.typ = b.typ ∧ a.size = b.size ∧ a.innerArg.map gObs = b.innerArg.map gObs

/-- Pointwise `fillEquiv` between two field sequences. -/
def fillEquivList (xs ys : List Arg) : Prop :=
  xs.length = ys.length ∧
    ∀ (j : Nat) (a b : Arg), xs[j]? = some a → ys[j]? = some b → fillEquiv a b

/-! ### Concrete programs and field sequences used as evaluation inputs -/

def tyOther8 : ArgType := ⟨"x", .dirIn, 8, .other⟩
def tyElem : ArgType := ⟨"elem", .dirIn, 4, .other⟩
def tyArr : ArgType := ⟨"arr", .dirIn, 0, .array⟩
def tyLenArr (bs : Nat) : ArgType := ⟨"l", .dirIn, 4, .len "arr" bs⟩
def tyParentLen : ArgType := ⟨"plen", .dirIn, 4, .len "parent" 0⟩
def tyMissingLen : ArgType := ⟨"bl", .dirIn, 4, .len "missing" 0⟩
def tyPad2 : ArgType := ⟨"padf", .dirIn, 2, .pad⟩
def tyF4 : ArgType := ⟨"f4", .dirIn, 4, .other⟩

def argElem : Arg := constArg tyElem 7
def argArr : Arg := .mk tyArr .argGroup 0 0 0 0 [] [argElem, argElem, argElem] none none

/-- C3's configuration: a length field targeting the sibling array "arr" of 3
elements occupying 12 bytes, with declared stride `bs`. -/
def c3Fields (bs : Nat) : List Arg := [constArg (tyLenArr bs) 0, argArr]

/-- C9's configuration: a 4-byte field, a 2-byte padding field and a 4-byte
length field targeting "parent" (total 10 bytes). -/
def c9Fields : List Arg :=
  [constArg tyF4 0, .mk tyPad2 .argConst 0 0 0 0 [] [] none none, constArg tyParentLen 0]

/-- C6's configuration: a length field referencing a name no field has. -/
def c6Fields : List Arg := [constArg tyMissingLen 0, constArg tyF4 0]

def tyPtr8 : ArgType := ⟨"ptr", .dirIn, 8, .pointer⟩
def tyIocb : ArgType := ⟨"iocb", .dirIn, 64, .structT⟩
def tyIocbArr : ArgType := ⟨"iocbarr", .dirIn, 0, .array⟩
def argIocb : Arg := .mk tyIocb .argGroup 0 0 0 0 [] [] none none
def ioPtr : Arg := .mk tyPtr8 .argPointer 0 0 0 0 [] [] (some argIocb) none
def ioArr : Arg := .mk tyIocbArr .argGroup 0 0 0 0 [] [ioPtr] none none
def ioA2 : Arg := .mk tyPtr8 .argPointer 0 0 0 0 [] [] (some ioArr) none

/-- An io_submit call with one control-block pointer in its array. -/
def ioCall : Call :=
  ⟨⟨"io_submit", "io_submit"⟩, [constArg tyOther8 0, constArg tyOther8 0, ioA2], none⟩

/-- A call with no arguments, used as the analysis target. -/
def tgtCall : Call := ⟨⟨"gettid", "gettid"⟩, [], none⟩

def ioProg : Prog := ⟨[ioCall, tgtCall]⟩

def tyFdOut : ArgType := ⟨"fd", .dirOut, 4, .resource "fd"⟩
def fdArg : Arg := .mk tyFdOut .argReturn 0 0 0 0 [] [] none none
def openCall : Call := ⟨⟨"open", "open"⟩, [], some fdArg⟩
def openProg : Prog := ⟨[openCall, tgtCall]⟩

def tyStrBuf : ArgType := ⟨"sbuf", .dirIn, 0, .buffer .bufferString⟩
def tyFileBuf : ArgType := ⟨"fbuf", .dirIn, 0, .buffer .bufferFilename⟩
def argStr : Arg := .mk tyStrBuf .argData 0 0 0 0 [104, 105] [] none none
def argFile : Arg := .mk tyFileBuf .argData 0 0 0 0 [47] [] none none
def writeCall : Call := ⟨⟨"write", "write"⟩, [argStr, argFile], none⟩
def writeProg : Prog := ⟨[writeCall, tgtCall]⟩

def tyMAddr : ArgType := ⟨"maddr", .dirIn, 8, .pointer⟩
def tyMLen : ArgType := ⟨"mlen", .dirIn, 8, .other⟩
def mAddr (p : Nat) : Arg := .mk tyMAddr .argPointer 0 p 0 0 [] [] none none
def mLen (np off : Nat) : Arg := .mk tyMLen .argPageSize 0 np off 0 [] [] none none
def mOther (v : Nat) : Arg := constArg tyOther8 v

/-- An anonymous mmap of pages [2, 5): 2 whole pages plus a partial page. -/
def mmapOkCall : Call :=
  ⟨⟨"mmap", "mmap"⟩, [mAddr 2, mLen 2 1, mOther 0, mOther 0, mOther MAP_ANONYMOUS], none⟩

/-- A munmap covering the same pages [2, 5). -/
def munmapCall : Call := ⟨⟨"munmap", "munmap"⟩, [mAddr 2, mLen 2 1], none⟩

/-- An mmap whose page range [4094, 4097) exceeds the 4096-entry bound. -/
def mmapBigCall : Call :=
  ⟨⟨"mmap", "mmap"⟩, [mAddr 4094, mLen 3 0, mOther 0, mOther 0, mOther MAP_ANONYMOUS], none⟩

/-- A munmap whose page range exceeds the bound. -/
def munmapBigCall : Call := ⟨⟨"munmap", "munmap"⟩, [mAddr 4094, mLen 3 0], none⟩

/-- A non-anonymous mmap of page [0, 1) backed by the invalid-FD sentinel:
the analysis skips it without marking any page. -/
def mmapSkipCall : Call :=
  ⟨⟨"mmap", "mmap"⟩, [mAddr 0, mLen 1 0, mOther 0, mOther InvalidFD, mOther 0], none⟩

def tyMode : ArgType := ⟨"mode", .dirIn, 4, .other⟩
def mknodCall : Call :=
  ⟨⟨"mknod", "mknod"⟩, [mOther 3, constArg tyMode S_IFBLK, mOther 9], none⟩
def mknodatCall : Call :=
  ⟨⟨"mknodat", "mknodat"⟩, [mOther 3, mOther 4, constArg tyMode S_IFBLK, mOther 9], none⟩
def exitCall : Call := ⟨⟨"exit", "exit"⟩, [mOther 195], none⟩
def exitGroupCall : Call := ⟨⟨"exit_group", "exit_group"⟩, [mOther 68], none⟩

/-- A call whose name matches no sanitizer rule. -/
def getpidCall : Call := ⟨⟨"getpid", "getpid"⟩, [mOther 5], none⟩

/-- A call with a return-value node, used to separate the two traversal
entry points. -/
def retCall : Call := ⟨⟨"r", "r"⟩, [], some argIocb⟩

/-- The state reached after observing `mmapOkCall` from the empty state. -/
def c2State1 : state := ((newState ⟨⟩).analyze mmapOkCall).getD (newState ⟨⟩)

/-- The state reached after then observing `munmapCall`. -/
def c2State2 : state := (c2State1.analyze munmapCall).getD c2State1

def tyC7Named : ArgType := ⟨"cl", .dirIn, 4, .len "arr" 0⟩
def tyC7Parent : ArgType := ⟨"cpl", .dirIn, 8, .len "parent" 0⟩

/-- A field sequence exercising both length-field forms: a named length
targeting the sibling array, the array itself, and a "parent" length. -/
def c7Fields : List Arg := [constArg tyC7Named 0, argArr, constArg tyC7Parent 0]

/-- The filled sequence `assignSizes` produces from `c7Fields`. -/
def c7Out : List Arg := (assignSizes c7Fields).getD []

/-! ## Basic lemmas about the argument model -/

@[simp] theorem Arg.typ_mk (t k v p o pn d i r u) : (Arg.mk t k v p o pn d i r u).typ = t := rfl

@[simp] theorem Arg.kind_mk (t k v p o pn d i r u) : (Arg.mk t k v p o pn d i r u).kind = k := rfl

@[simp] theorem Arg.val_mk (t k v p o pn d i r u) : (Arg.mk t k v p o pn d i r u).val = v := rfl

@[simp] theorem Arg.addrPage_mk (t k v p o pn d i r u) :
    (Arg.mk t k v p o pn d i r u).addrPage = p := rfl

@[simp] theorem Arg.addrOffset_mk (t k v p o pn d i r u) :
    (Arg.mk t k v p o pn d i r u).addrOffset = o := rfl

@[simp] theorem Arg.addrPagesNum_mk (t k v p o pn d i r u) :
    (Arg.mk t k v p o pn d i r u).addrPagesNum = pn := rfl

@[simp] theorem Arg.data_mk (t k v p o pn d i r u) : (Arg.mk t k v p o pn d i r u).data = d := rfl

@[simp] theorem Arg.inner_mk (t k v p o pn d i r u) :
    (Arg.mk t k v p o pn d i r u).inner = i := rfl

@[simp] theorem Arg.res_mk (t k v p o pn d i r u) : (Arg.mk t k v p o pn d i r u).res = r := rfl

@[simp] theorem Arg.opt_mk (t k v p o pn d i r u) : (Arg.mk t k v p o pn d i r u).opt = u := rfl

@[simp] theorem Arg.setVal_typ (a : Arg) (v : Nat) : (a.setVal v).typ = a.typ := by
  cases a; rfl

@[simp] theorem Arg.setVal_kind (a : Arg) (v : Nat) : (a.setVal v).kind = a.kind := by
  cases a; rfl

@[simp] theorem Arg.setVal_val (a : Arg) (v : Nat) : (a.setVal v).val = v := by
  cases a; rfl

@[simp] theorem Arg.setVal_addrPagesNum (a : Arg) (v : Nat) :
    (a.setVal v).addrPagesNum = a.addrPagesNum := by
  cases a; rfl

@[simp] theorem Arg.setVal_inner (a : Arg) (v : Nat) : (a.setVal v).inner = a.inner := by
  cases a; rfl

@[simp] theorem Arg.setVal_size (a : Arg) (v : Nat) : (a.setVal v).size = a.size := by
  cases a
  simp only [Arg.setVal, Arg.size]

@[simp] theorem Arg.setVal_setVal (a : Arg) (v w : Nat) : (a.setVal v).setVal w = a.setVal w := by
  cases a
  rfl

/-- A resolved inner argument is never pointer-typed. -/
theorem Arg.innerArg_not_pointer : ∀ a w : Arg, a.innerArg = some w → w.typ.kind ≠ .pointer
  | .mk t k v p o pn d i r u, w => by
    intro h
    simp only [Arg.innerArg] at h
    by_cases ht : t.kind = .pointer
    · rw [if_pos ht] at h
      match r with
      | some x => exact Arg.innerArg_not_pointer x w h
      | none => exact absurd h (by simp [Arg.innerArgOpt])
    · rw [if_neg ht] at h
      obtain rfl : Arg.mk t k v p o pn d i r u = w := by injection h
      simpa using ht

/-- A non-pointer node resolves to itself. -/
theorem Arg.innerArg_of_not_pointer (a : Arg) (h : a.typ.kind ≠ .pointer) :
    a.innerArg = some a := by
  cases a
  simp only [Arg.innerArg]
  rw [if_neg (by simpa using h)]

/-- Writing a non-pointer node through the chain makes it the resolved inner
argument. -/
theorem Arg.innerArg_setInnerArg : ∀ a w v : Arg, a.innerArg = some w →
    v.typ.kind ≠ .pointer → (a.setInnerArg v).innerArg = some v
  | .mk t k v0 p o pn d i r u, w, v => by
    intro h hv
    simp only [Arg.innerArg, Arg.setInnerArg] at h ⊢
    by_cases ht : t.kind = .pointer
    · rw [if_pos ht] at h ⊢
      simp only [Arg.innerArg]
      rw [if_pos (by simpa using ht)]
      match r with
      | some x =>
        simp only [Arg.innerArgOpt] at h
        simp only [Arg.setInnerArgOpt, Arg.innerArgOpt]
        exact Arg.innerArg_setInnerArg x w v h hv
      | none => exact absurd h (by simp [Arg.innerArgOpt])
    · rw [if_neg ht]
      exact v.innerArg_of_not_pointer hv

/-- Writing through the chain preserves the top-level type descriptor,
provided the written node's type matches the resolved inner node's type. -/
theorem Arg.setInnerArg_typ : ∀ a w v : Arg, a.innerArg = some w →
    v.typ = w.typ → (a.setInnerArg v).typ = a.typ
  | .mk t k v0 p o pn d i r u, w, v => by
    intro h hv
    simp only [Arg.innerArg, Arg.setInnerArg] at h ⊢
    by_cases ht : t.kind = .pointer
    · rw [if_pos ht]
      simp
    · rw [if_neg ht] at h ⊢
      obtain rfl : Arg.mk t k v0 p o pn d i r u = w := by injection h
      simpa using hv

/-- Two successive writes through the chain collapse to the second one. -/
theorem Arg.setInnerArg_setInnerArg : ∀ a w u1 v : Arg, a.innerArg = some w →
    u1.typ.kind ≠ .pointer → (a.setInnerArg u1).setInnerArg v = a.setInnerArg v
  | .mk t k v0 p o pn d i r u, w, u1, v => by
    intro h hu
    simp only [Arg.innerArg] at h
    by_cases ht : t.kind = .pointer
    · rw [if_pos ht] at h
      rcases r with _ | x
      · simp [Arg.innerArgOpt] at h
      · simp only [Arg.innerArgOpt] at h
        simp [Arg.setInnerArg, Arg.setInnerArgOpt, ht,
          Arg.setInnerArg_setInnerArg x w u1 v h hu]
    · rw [if_neg ht] at h
      have h1 : (Arg.mk t k v0 p o pn d i r u).setInnerArg u1 = u1 := by
        simp [Arg.setInnerArg, ht]
      have h2 : (Arg.mk t k v0 p o pn d i r u).setInnerArg v = v := by
        simp [Arg.setInnerArg, ht]
      rw [h1, h2]
      cases u1
      simp only [Arg.typ_mk] at hu
      simp [Arg.setInnerArg, hu]

/-- Writing a same-typed scalar through the chain preserves the top-level
byte size. -/
theorem Arg.setInnerArg_size : ∀ a w v : Arg, a.innerArg = some w →
    v.typ = w.typ → v.size = w.size → (a.setInnerArg v).size = a.size
  | .mk t k v0 p o pn d i r u, w, v => by
    intro h hv hs
    simp only [Arg.innerArg, Arg.setInnerArg] at h ⊢
    by_cases ht : t.kind = .pointer
    · rw [if_pos ht]
      simp [Arg.size, ht, TypeKind.isBuffer]
    · rw [if_neg ht] at h ⊢
      obtain rfl : Arg.mk t k v0 p o pn d i r u = w := by injection h
      exact hs

/-- `setPagesLoop` sets exactly the pages in `[base, base + n)`. -/
theorem setPagesLoop_eq : ∀ (n : Nat) (pages : Nat → Bool) (base : Nat) (ok : Bool) (j : Nat),
    setPagesLoop pages base ok n j = if base ≤ j ∧ j < base + n then ok else pages j
  | 0, pages, base, ok, j => by
    simp only [setPagesLoop]
    rw [if_neg (by omega)]
  | n + 1, pages, base, ok, j => by
    simp only [setPagesLoop]
    rw [setPagesLoop_eq n _ (base + 1) ok j]
    by_cases h1 : base + 1 ≤ j ∧ j < base + 1 + n
    · rw [if_pos h1, if_pos (by omega)]
    · rw [if_neg h1]
      by_cases h2 : j = base
      · rw [if_pos h2, if_pos (by omega)]
      · rw [if_neg h2, if_neg (by omega)]

/-! ## Lemmas about the per-call observation step -/

theorem state.observeArg_pages (s : state) (a : Arg) :
    (s.observeArg a).pages = s.pages := by
  unfold state.observeArg
  repeat' split
  all_goals rfl

theorem state.observeArg_ct (s : state) (a : Arg) : (s.observeArg a).ct = s.ct := by
  unfold state.observeArg
  repeat' split
  all_goals rfl

theorem state.observeArg_resources (s : state) (a : Arg) (k : String) :
    (s.observeArg a).resources k = s.resources k ++ (if isResProducer k a then [a] else []) := by
  unfold state.observeArg isResProducer
  rcases htk : a.typ.kind with kn | bk | _ | _ | _ | _ | _ | _ | _ | _ <;>
    simp only [state.addResource]
  case resource =>
    by_cases hd : a.typ.dir ≠ .dirIn
    · rw [if_pos hd]
      by_cases hk : k = kn
      · simp [hk, hd]
      · have : ¬(kn = k ∧ a.typ.dir ≠ .dirIn) := by
          intro hc
          exact hk hc.1.symm
        simp [hk, this]
    · rw [if_neg hd]
      have : ¬(kn = k ∧ a.typ.dir ≠ .dirIn) := by
        intro hc
        exact hd hc.2
      simp [this]
  case buffer =>
    split
    · split <;> simp
    · simp
  all_goals simp

theorem state.observeArg_strings (s : state) (a : Arg) :
    (s.observeArg a).strings = s.strings ++ stringsOfNodes [a] := by
  unfold state.observeArg stringsOfNodes
  rcases htk : a.typ.kind with kn | bk | _ | _ | _ | _ | _ | _ | _ | _ <;>
    simp only [List.filterMap, state.addResource]
  case resource =>
    split <;> simp [htk]
  case buffer =>
    by_cases hc : a.typ.dir ≠ .dirOut ∧ a.kind = .argData ∧ a.data ≠ []
    · rw [if_pos hc]
      rcases bk with _ | _ | _ | _
      · simp [htk, hc]
      · simp [htk, hc]
      · simp [htk, hc]
      · simp [htk, hc]
    · rw [if_neg hc]
      rcases bk with _ | _ | _ | _ <;> simp [htk, hc]
  all_goals simp [htk]

theorem state.observeArg_files (s : state) (a : Arg) :
    (s.observeArg a).files = s.files ++ filesOfNodes [a] := by
  unfold state.observeArg filesOfNodes
  rcases htk : a.typ.kind with kn | bk | _ | _ | _ | _ | _ | _ | _ | _ <;>
    simp only [List.filterMap, state.addResource]
  case resource =>
    split <;> simp [htk]
  case buffer =>
    by_cases hc : a.typ.dir ≠ .dirOut ∧ a.kind = .argData ∧ a.data ≠ []
    · rw [if_pos hc]
      rcases bk with _ | _ | _ | _
      · simp [htk, hc]
      · simp [htk, hc]
      · simp [htk, hc]
      · simp [htk, hc]
    · rw [if_neg hc]
      rcases bk with _ | _ | _ | _ <;> simp [htk, hc]
  all_goals simp [htk]

theorem stringsOfNodes_cons (a : Arg) (l : List Arg) :
    stringsOfNodes (a :: l) = stringsOfNodes [a] ++ stringsOfNodes l := by
  unfold stringsOfNodes
  rw [List.filterMap_cons, List.filterMap_cons]
  split <;> simp

theorem filesOfNodes_cons (a : Arg) (l : List Arg) :
    filesOfNodes (a :: l) = filesOfNodes [a] ++ filesOfNodes l := by
  unfold filesOfNodes
  rw [List.filterMap_cons, List.filterMap_cons]
  split <;> simp

theorem foldl_observe_pages : ∀ (l : List Arg) (s : state),
    (l.foldl state.observeArg s).pages = s.pages
  | [], s => rfl
  | a :: l, s => by
    rw [List.foldl_cons, foldl_observe_pages l, state.observeArg_pages]

theorem foldl_observe_resources : ∀ (l : List Arg) (s : state) (k : String),
    (l.foldl state.observeArg s).resources k = s.resources k ++ resProducers k l
  | [], s, k => by simp [resProducers]
  | a :: l, s, k => by
    rw [List.foldl_cons, foldl_observe_resources l, state.observeArg_resources]
    unfold resProducers
    rw [List.filter_cons]
    split <;> simp

theorem foldl_observe_strings : ∀ (l : List Arg) (s : state),
    (l.foldl state.observeArg s).strings = s.strings ++ stringsOfNodes l
  | [], s => by simp [stringsOfNodes]
  | a :: l, s => by
    rw [List.foldl_cons, foldl_observe_strings l, state.observeArg_strings]
    conv_rhs => rw [stringsOfNodes_cons a l]
    rw [List.append_assoc]

theorem foldl_observe_files : ∀ (l : List Arg) (s : state),
    (l.foldl state.observeArg s).files = s.files ++ filesOfNodes l
  | [], s => by simp [filesOfNodes]
  | a :: l, s => by
    rw [List.foldl_cons, foldl_observe_files l, state.observeArg_files]
    conv_rhs => rw [filesOfNodes_cons a l]
    rw [List.append_assoc]

/-- `addressable` only rewrites the page bitmap. -/
theorem state.addressable_fields (s s1 : state) (addr size : Arg) (ok : Bool)
    (h : s.addressable addr size ok = some s1) :
    s1.resources = s.resources ∧ s1.strings = s.strings ∧ s1.files = s.files := by
  unfold state.addressable at h
  split at h
  · split at h
    · exact absurd h (by simp)
    · obtain rfl : _ = s1 := Option.some_inj.mp h
      exact ⟨rfl, rfl, rfl⟩
  · exact absurd h (by simp)

/-- One io_submit registration step appends its element under "iocbptr"
exactly when the element passes the iocb-pointer test. -/
theorem state.ioStep_resources (s : state) (a : Arg) (k : String) :
    (s.ioStep a).resources k = s.resources k ++
      (if iocbPred a = true ∧ k = "iocbptr" then [a] else []) := by
  unfold state.ioStep iocbPred
  by_cases hk : a.kind = .argPointer
  · rw [if_pos hk]
    rcases hr : a.res with _ | x
    · simp [hk, hr]
    · by_cases hn : x.typ.name = "iocb"
      · simp only [hr, if_pos hn]
        unfold state.addResource
        by_cases hkk : k = "iocbptr"
        · simp [hk, hn, hkk]
        · simp [hk, hn, hkk, Ne.symm hkk]
      · simp only [hr, if_neg hn]
        simp [hk, hn, hr]
  · rw [if_neg hk]
    simp [hk]

theorem state.ioStep_other (s : state) (a : Arg) :
    (s.ioStep a).strings = s.strings ∧ (s.ioStep a).files = s.files ∧
      (s.ioStep a).pages = s.pages := by
  unfold state.ioStep state.addResource
  repeat' split
  all_goals exact ⟨rfl, rfl, rfl⟩

theorem foldl_ioStep_resources : ∀ (l : List Arg) (s : state) (k : String),
    ((l.foldl state.ioStep s).resources k) =
      s.resources k ++ (if k = "iocbptr" then l.filter iocbPred else [])
  | [], s, k => by split <;> simp
  | a :: l, s, k => by
    rw [List.foldl_cons, foldl_ioStep_resources l, state.ioStep_resources,
      List.filter_cons]
    by_cases hkk : k = "iocbptr"
    · by_cases hp : iocbPred a
      · simp [hkk, hp]
      · simp [hkk, hp]
    · simp [hkk]

theorem foldl_ioStep_other : ∀ (l : List Arg) (s : state),
    (l.foldl state.ioStep s).strings = s.strings ∧
      (l.foldl state.ioStep s).files = s.files ∧
      (l.foldl state.ioStep s).pages = s.pages
  | [], s => ⟨rfl, rfl, rfl⟩
  | a :: l, s => by
    rw [List.foldl_cons]
    obtain ⟨h1, h2, h3⟩ := foldl_ioStep_other l (s.ioStep a)
    obtain ⟨g1, g2, g3⟩ := state.ioStep_other s a
    rw [h1, h2, h3, g1, g2, g3]
    exact ⟨rfl, rfl, rfl⟩

theorem state.addIocbPtrs_resources (s : state) (arr : Arg) (k : String) :
    (s.addIocbPtrs arr).resources k = s.resources k ++
      (if k = "iocbptr" then iocbPtrsOf arr else []) := by
  unfold state.addIocbPtrs iocbPtrsOf
  exact foldl_ioStep_resources arr.inner s k

theorem state.addIocbPtrs_other (s : state) (arr : Arg) :
    (s.addIocbPtrs arr).strings = s.strings ∧ (s.addIocbPtrs arr).files = s.files ∧
      (s.addIocbPtrs arr).pages = s.pages := by
  unfold state.addIocbPtrs
  exact foldl_ioStep_other arr.inner s

/-- Without the io_submit special case, a call appends exactly its
resource-producing nodes. -/
theorem callProducers_of_ne (c : Call) (k : String) (h : c.meta.name ≠ "io_submit") :
    callProducers c k = resProducers k (collectArgArray c.args c.ret) := by
  unfold callProducers
  rw [if_neg (by simp [h])]
  simp

/-- What one observed call contributes to every record of the state: its
producers under `resources`, its qualifying string and filename payloads. -/
theorem state.analyze_fields (s s1 : state) (c : Call) (h : s.analyze c = some s1) :
    (∀ k, s1.resources k = s.resources k ++ callProducers c k) ∧
    s1.strings = s.strings ++ stringsOfNodes (collectArgArray c.args c.ret) ∧
    s1.files = s.files ++ filesOfNodes (collectArgArray c.args c.ret) := by
  have hres := foldl_observe_resources (collectArgArray c.args c.ret) s
  have hstr := foldl_observe_strings (collectArgArray c.args c.ret) s
  have hfil := foldl_observe_files (collectArgArray c.args c.ret) s
  unfold state.analyze at h
  split at h
  next hname =>
    -- mmap
    have hcp := fun k => callProducers_of_ne c k (by rw [hname]; decide)
    cases h1 : c.args[1]? with
    | none => rw [h1] at h; simp at h
    | some length =>
      rw [h1] at h
      simp only [Option.some_bind] at h
      split at h
      · obtain rfl : _ = s1 := Option.some_inj.mp h
        exact ⟨fun k => by rw [hres k, hcp k], hstr, hfil⟩
      · cases h4 : c.args[4]? with
        | none => rw [h4] at h; simp at h
        | some flags =>
          rw [h4] at h
          simp only [Option.some_bind] at h
          cases h3 : c.args[3]? with
          | none => rw [h3] at h; simp at h
          | some fd =>
            rw [h3] at h
            simp only [Option.some_bind] at h
            split at h
            · obtain rfl : _ = s1 := Option.some_inj.mp h
              exact ⟨fun k => by rw [hres k, hcp k], hstr, hfil⟩
            · cases h0 : c.args[0]? with
              | none => rw [h0] at h; simp at h
              | some addr =>
                rw [h0] at h
                simp only [Option.some_bind] at h
                obtain ⟨hr2, hs2, hf2⟩ := state.addressable_fields _ _ _ _ _ h
                refine ⟨fun k => ?_, by rw [hs2, hstr], by rw [hf2, hfil]⟩
                rw [congrFun hr2 k, hres k, hcp k]
  next hname =>
    -- munmap
    have hcp := fun k => callProducers_of_ne c k (by rw [hname]; decide)
    cases h0 : c.args[0]? with
    | none => rw [h0] at h; simp at h
    | some addr =>
      rw [h0] at h
      simp only [Option.some_bind] at h
      cases h1 : c.args[1]? with
      | none => rw [h1] at h; simp at h
      | some size =>
        rw [h1] at h
        simp only [Option.some_bind] at h
        obtain ⟨hr2, hs2, hf2⟩ := state.addressable_fields _ _ _ _ _ h
        refine ⟨fun k => ?_, by rw [hs2, hstr], by rw [hf2, hfil]⟩
        rw [congrFun hr2 k, hres k, hcp k]
  next hname =>
    -- mremap
    have hcp := fun k => callProducers_of_ne c k (by rw [hname]; decide)
    cases h4 : c.args[4]? with
    | none => rw [h4] at h; simp at h
    | some addr =>
      rw [h4] at h
      simp only [Option.some_bind] at h
      cases h2 : c.args[2]? with
      | none => rw [h2] at h; simp at h
      | some size =>
        rw [h2] at h
        simp only [Option.some_bind] at h
        obtain ⟨hr2, hs2, hf2⟩ := state.addressable_fields _ _ _ _ _ h
        refine ⟨fun k => ?_, by rw [hs2, hstr], by rw [hf2, hfil]⟩
        rw [congrFun hr2 k, hres k, hcp k]
  next hname =>
    -- io_submit
    cases h2 : c.args[2]? with
    | none => rw [h2] at h; simp at h
    | some a2 =>
      rw [h2] at h
      simp only [Option.some_bind] at h
      have hcp : ∀ k, callProducers c k =
          resProducers k (collectArgArray c.args c.ret) ++
            (if k = "iocbptr" then
              (match a2.res with
                | some arr => iocbPtrsOf arr
                | none => []) else []) := by
        intro k
        unfold callProducers
        rw [h2]
        by_cases hk : k = "iocbptr"
        · rw [if_pos ⟨hname, hk⟩, if_pos hk]
        · rw [if_neg (fun hc => hk hc.2), if_neg hk]
      rcases hares : a2.res with _ | arr
      · rw [hares] at h
        obtain rfl : _ = s1 := Option.some_inj.mp h
        refine ⟨fun k => ?_, hstr, hfil⟩
        rw [hres k, hcp k, hares]
        simp [List.append_assoc]
      · rw [hares] at h
        obtain rfl : _ = s1 := Option.some_inj.mp h
        obtain ⟨hs2, hf2, _⟩ := state.addIocbPtrs_other
          ((collectArgArray c.args c.ret).foldl state.observeArg s) arr
        refine ⟨fun k => ?_, by rw [hs2, hstr], by rw [hf2, hfil]⟩
        rw [state.addIocbPtrs_resources, hres k, hcp k, hares]
        simp [List.append_assoc]
  next hn1 hn2 hn3 hn4 =>
    -- no special case
    obtain rfl : _ = s1 := Option.some_inj.mp h
    have hcp := fun k => callProducers_of_ne c k hn4
    exact ⟨fun k => by rw [hres k, hcp k], hstr, hfil⟩

/-- What the prefix loop accumulates: the per-call contributions of every
call strictly before the first occurrence of `c`, in program order. -/
theorem analyzeLoop_fields : ∀ (calls : List Call) (s s1 : state) (c : Call),
    analyzeLoop s calls c = some s1 →
    (∀ k, s1.resources k = s.resources k ++
      (calls.takeWhile (fun c1 => decide (c1 ≠ c))).flatMap (fun c1 => callProducers c1 k)) ∧
    s1.strings = s.strings ++ (calls.takeWhile (fun c1 => decide (c1 ≠ c))).flatMap
      (fun c1 => stringsOfNodes (collectArgArray c1.args c1.ret)) ∧
    s1.files = s.files ++ (calls.takeWhile (fun c1 => decide (c1 ≠ c))).flatMap
      (fun c1 => filesOfNodes (collectArgArray c1.args c1.ret))
  | [], s, s1, c => by
    intro h
    obtain rfl : s = s1 := Option.some_inj.mp h
    simp
  | c1 :: rest, s, s1, c => by
    intro h
    unfold analyzeLoop at h
    by_cases he : c1 = c
    · rw [if_pos he] at h
      obtain rfl : s = s1 := Option.some_inj.mp h
      rw [List.takeWhile_cons_of_neg (by simp [he])]
      simp
    · rw [if_neg he] at h
      cases han : s.analyze c1 with
      | none => rw [han] at h; exact absurd h (by simp)
      | some s2 =>
        rw [han] at h
        obtain ⟨ih1, ih2, ih3⟩ := analyzeLoop_fields rest s2 s1 c h
        obtain ⟨g1, g2, g3⟩ := state.analyze_fields s s2 c1 han
        rw [List.takeWhile_cons_of_pos (by simp [he])]
        refine ⟨fun k => ?_, ?_, ?_⟩
        · rw [ih1 k, g1 k, List.flatMap_cons, List.append_assoc]
        · rw [ih2, g2, List.flatMap_cons, List.append_assoc]
        · rw [ih3, g3, List.flatMap_cons, List.append_assoc]

/-! ## Claim C1 -/

/-- C1, counterexample.  In the program `ioProg`, the io_submit call registers
the (pointer-typed, not resource-typed) node `ioPtr` under the resource kind
"iocbptr", so `resources["iocbptr"]` differs from the claim's words (the
resource-typed producer nodes of the prefix, which are none): the claim fails
for the resource kind "iocbptr". -/
theorem c1_counterexample :
    (analyze ⟨⟩ ioProg tgtCall).map (fun s => s.resources "iocbptr") = some [ioPtr] ∧
    resourceNodesSpec ioProg tgtCall "iocbptr" = [] ∧
    ioPtr.typ.kind = .pointer ∧ ([ioPtr] : List Arg) ≠ [] :=
  ⟨rfl, rfl, rfl, by simp⟩

/-- C1, amended.  For every program, target call and kind `k`, the state that
`analyze` returns has `resources[k]` equal to the concatenation, over the
calls strictly preceding the target (by identity), of: the call's
resource-typed argument nodes of kind `k` whose direction is output or in-out
(in traversal order) — plus, when the call is io_submit and `k` is the ad hoc
kind "iocbptr", its iocb-pointing control-block array elements.  No node of
the target call or of any later call is ever included, and pure-input
resource nodes are never included. -/
theorem c1_resources_exact (ct : ChoiceTable) (p : Prog) (c : Call) (s : state)
    (h : analyze ct p c = some s) (k : String) :
    s.resources k = (prefixBefore p c).flatMap (fun c1 => callProducers c1 k) := by
  obtain ⟨h1, _, _⟩ := analyzeLoop_fields p.calls (newState ct) s c h
  rw [h1 k]
  unfold newState prefixBefore
  simp

theorem c1_resources_exact_witness :
    (analyze ⟨⟩ openProg tgtCall).map (fun s => s.resources "fd") =
      some ((prefixBefore openProg tgtCall).flatMap (fun c1 => callProducers c1 "fd")) := by
  have h : analyze ⟨⟩ openProg tgtCall =
      some ((collectArgArray openCall.args openCall.ret).foldl state.observeArg
        (newState ⟨⟩)) := rfl
  rw [h, Option.map_some']
  exact congrArg some (c1_resources_exact ⟨⟩ openProg tgtCall _ h "fd")

/-! ## Claim C5 -/

theorem mem_stringsOfNodes (l : List Arg) (v : List Nat) :
    v ∈ stringsOfNodes l ↔ ∃ a ∈ l, a.typ.kind = .buffer .bufferString ∧
      a.typ.dir ≠ .dirOut ∧ a.kind = .argData ∧ a.data ≠ [] ∧ a.data = v := by
  unfold stringsOfNodes
  rw [List.mem_filterMap]
  constructor
  · rintro ⟨a, ha, hf⟩
    split at hf
    · next hc =>
      obtain rfl : a.data = v := Option.some_inj.mp hf
      exact ⟨a, ha, hc.1, hc.2.1, hc.2.2.1, hc.2.2.2, rfl⟩
    · exact absurd hf (by simp)
  · rintro ⟨a, ha, h1, h2, h3, h4, rfl⟩
    exact ⟨a, ha, by rw [if_pos ⟨h1, h2, h3, h4⟩]⟩

theorem mem_filesOfNodes (l : List Arg) (v : List Nat) :
    v ∈ filesOfNodes l ↔ ∃ a ∈ l, a.typ.kind = .buffer .bufferFilename ∧
      a.typ.dir ≠ .dirOut ∧ a.kind = .argData ∧ a.data ≠ [] ∧ a.data = v := by
  unfold filesOfNodes
  rw [List.mem_filterMap]
  constructor
  · rintro ⟨a, ha, hf⟩
    split at hf
    · next hc =>
      obtain rfl : a.data = v := Option.some_inj.mp hf
      exact ⟨a, ha, hc.1, hc.2.1, hc.2.2.1, hc.2.2.2, rfl⟩
    · exact absurd hf (by simp)
  · rintro ⟨a, ha, h1, h2, h3, h4, rfl⟩
    exact ⟨a, ha, by rw [if_pos ⟨h1, h2, h3, h4⟩]⟩

/-- C5.  After analysis, a byte value is in `strings` (resp. `files`) exactly
when some node of a call strictly preceding the target is a string-kind
(resp. filename-kind) buffer with concrete non-empty data equal to that
value and direction other than pure-output.  In particular every such input
or in-out buffer's payload is present, and a pure-output buffer node never
causes an entry. -/
theorem c5_buffer_values (ct : ChoiceTable) (p : Prog) (c : Call) (s : state)
    (h : analyze ct p c = some s) :
    (∀ v : List Nat, v ∈ s.strings ↔ ∃ c1 ∈ prefixBefore p c,
      ∃ a ∈ collectArgArray c1.args c1.ret, a.typ.kind = .buffer .bufferString ∧
        a.typ.dir ≠ .dirOut ∧ a.kind = .argData ∧ a.data ≠ [] ∧ a.data = v) ∧
    (∀ v : List Nat, v ∈ s.files ↔ ∃ c1 ∈ prefixBefore p c,
      ∃ a ∈ collectArgArray c1.args c1.ret, a.typ.kind = .buffer .bufferFilename ∧
        a.typ.dir ≠ .dirOut ∧ a.kind = .argData ∧ a.data ≠ [] ∧ a.data = v) := by
  obtain ⟨_, h2, h3⟩ := analyzeLoop_fields p.calls (newState ct) s c h
  constructor
  · intro v
    rw [h2]
    unfold newState prefixBefore
    simp only [List.nil_append, List.mem_flatMap]
    constructor
    · rintro ⟨c1, hc1, hv⟩
      exact ⟨c1, hc1, (mem_stringsOfNodes _ v).mp hv⟩
    · rintro ⟨c1, hc1, hv⟩
      exact ⟨c1, hc1, (mem_stringsOfNodes _ v).mpr hv⟩
  · intro v
    rw [h3]
    unfold newState prefixBefore
    simp only [List.nil_append, List.mem_flatMap]
    constructor
    · rintro ⟨c1, hc1, hv⟩
      exact ⟨c1, hc1, (mem_filesOfNodes _ v).mp hv⟩
    · rintro ⟨c1, hc1, hv⟩
      exact ⟨c1, hc1, (mem_filesOfNodes _ v).mpr hv⟩

theorem c5_buffer_values_witness :
    [104, 105] ∈ ((collectArgArray writeCall.args writeCall.ret).foldl state.observeArg
        (newState ⟨⟩)).strings ∧
    [47] ∈ ((collectArgArray writeCall.args writeCall.ret).foldl state.observeArg
        (newState ⟨⟩)).files := by
  have h : analyze ⟨⟩ writeProg tgtCall =
      some ((collectArgArray writeCall.args writeCall.ret).foldl state.observeArg
        (newState ⟨⟩)) := rfl
  obtain ⟨hs, hf⟩ := c5_buffer_values ⟨⟩ writeProg tgtCall _ h
  constructor
  · refine (hs [104, 105]).mpr ⟨writeCall, ?_, argStr, ?_, rfl, ?_, rfl, ?_, rfl⟩
    · simp [prefixBefore, writeProg, writeCall, tgtCall]
    · simp [collectArgArray, writeCall, Arg.collectList, Arg.collect, argStr, argFile]
    · decide
    · decide
  · refine (hf [47]).mpr ⟨writeCall, ?_, argFile, ?_, rfl, ?_, rfl, ?_, rfl⟩
    · simp [prefixBefore, writeProg, writeCall, tgtCall]
    · simp [collectArgArray, writeCall, Arg.collectList, Arg.collect, argStr, argFile]
    · decide
    · decide

/-! ## Claim C4 -/

theorem mem_collectList_of : ∀ (l : List Arg) (b y : Arg), b ∈ l → y ∈ b.collect →
    y ∈ Arg.collectList l
  | [], b, y => by simp
  | a :: rest, b, y => by
    intro hb hy
    unfold Arg.collectList
    rcases List.mem_cons.mp hb with rfl | hb2
    · exact List.mem_append_left _ hy
    · exact List.mem_append_right _ (mem_collectList_of rest b y hb2 hy)

/-- Every reachable node is visited by the subtree traversal. -/
theorem reach_mem_collect {a y : Arg} (h : Reach a y) : y ∈ a.collect := by
  induction h with
  | refl a =>
    cases a
    unfold Arg.collect
    exact List.mem_cons_self _ _
  | @inner a b c hb hr ih =>
    obtain ⟨t, k, v, p, o, pn, d, i, r, u⟩ := a
    simp only [Arg.inner_mk] at hb
    unfold Arg.collect
    simp only [List.mem_cons, List.mem_append]
    exact Or.inr (Or.inl (Or.inl (mem_collectList_of i b _ hb ih)))
  | @res a b c hk hr hrc ih =>
    obtain ⟨t, k, v, p, o, pn, d, i, r, u⟩ := a
    simp only [Arg.kind_mk] at hk
    simp only [Arg.res_mk] at hr
    subst hk hr
    unfold Arg.collect
    simp only [List.mem_cons, List.mem_append]
    refine Or.inr (Or.inl (Or.inr ?_))
    simpa [Arg.collectOpt] using ih
  | @opt a b c hk hu hrc ih =>
    obtain ⟨t, k, v, p, o, pn, d, i, r, u⟩ := a
    simp only [Arg.kind_mk] at hk
    simp only [Arg.opt_mk] at hu
    subst hk hu
    unfold Arg.collect
    simp only [List.mem_cons, List.mem_append]
    refine Or.inr (Or.inr ?_)
    simpa [Arg.collectOpt] using ih

mutual

/-- Every node the subtree traversal visits is reachable. -/
theorem mem_collect_reach : ∀ (a y : Arg), y ∈ Arg.collect a → Reach a y
  | .mk t k v p o pn d i r u, y => by
    intro h
    unfold Arg.collect at h
    rcases List.mem_cons.mp h with rfl | h2
    · exact Reach.refl _
    rcases List.mem_append.mp h2 with h3 | hopt
    rcases List.mem_append.mp h3 with hin | hptr
    · obtain ⟨x, hx, hy⟩ := mem_collectList_reach i y hin
      exact Reach.inner (a := .mk t k v p o pn d i r u) (by simpa using hx) hy
    · by_cases hk : k = .argPointer
      · rw [if_pos hk] at hptr
        rcases r with _ | x
        · exact absurd hptr (by simp [Arg.collectOpt])
        · exact Reach.res (a := .mk t k v p o pn d i (some x) u) (by simpa using hk)
            (by simp) (mem_collect_reach x y (by simpa [Arg.collectOpt] using hptr))
      · rw [if_neg hk] at hptr
        exact absurd hptr (by simp)
    · by_cases hk : k = .argUnion
      · rw [if_pos hk] at hopt
        rcases u with _ | x
        · exact absurd hopt (by simp [Arg.collectOpt])
        · exact Reach.opt (a := .mk t k v p o pn d i r (some x)) (by simpa using hk)
            (by simp) (mem_collect_reach x y (by simpa [Arg.collectOpt] using hopt))
      · rw [if_neg hk] at hopt
        exact absurd hopt (by simp)

theorem mem_collectList_reach : ∀ (l : List Arg) (y : Arg), y ∈ Arg.collectList l →
    ∃ x ∈ l, Reach x y
  | [], y => by simp [Arg.collectList]
  | a :: rest, y => by
    intro h
    unfold Arg.collectList at h
    rcases List.mem_append.mp h with h1 | h2
    · exact ⟨a, List.mem_cons_self _ _, mem_collect_reach a y h1⟩
    · obtain ⟨x, hx, hy⟩ := mem_collectList_reach rest y h2
      exact ⟨x, List.mem_cons_of_mem _ hx, hy⟩

end

/-- C4, counterexample.  `retCall` has a return-value node: `foreachArgArray`
(which receives the return value) visits it, but `foreachArg` passes no
return value (`foreachArgArray(&c.Args, nil, f)`) and never visits it —
and size resolution traverses calls through `foreachArg`. -/
theorem c4_counterexample :
    retCall.ret = some argIocb ∧
    argIocb ∈ collectArgArray retCall.args retCall.ret ∧
    argIocb ∉ collectArg retCall :=
  ⟨rfl, by decide, by decide⟩

/-- C4, amended.  `foreachArgArray` visits exactly the nodes reachable from
the top-level argument list plus, when a return value is passed, the nodes
reachable from it; `foreachArg` invokes it with no return value, so it visits
exactly the nodes reachable from the argument list (never the call's
return-value node unless it is reachable from an argument). -/
theorem c4_traversal :
    (∀ (args : List Arg) (r y : Arg),
      y ∈ collectArgArray args (some r) ↔ (∃ x ∈ args, Reach x y) ∨ Reach r y) ∧
    (∀ (c : Call) (y : Arg), y ∈ collectArg c ↔ ∃ x ∈ c.args, Reach x y) := by
  have harr : ∀ (args : List Arg) (y : Arg),
      y ∈ Arg.collectList args ↔ ∃ x ∈ args, Reach x y := by
    intro args y
    exact ⟨mem_collectList_reach args y,
      fun ⟨x, hx, hy⟩ => mem_collectList_of args x y hx (reach_mem_collect hy)⟩
  constructor
  · intro args r y
    unfold collectArgArray
    rw [List.mem_append]
    constructor
    · rintro (h1 | h2)
      · exact Or.inl ((harr args y).mp h1)
      · exact Or.inr (mem_collect_reach r y h2)
    · rintro (h1 | h2)
      · exact Or.inl ((harr args y).mpr h1)
      · exact Or.inr (reach_mem_collect h2)
  · intro c y
    unfold collectArg collectArgArray
    rw [List.mem_append]
    constructor
    · rintro (h1 | h2)
      · exact (harr c.args y).mp h1
      · exact absurd h2 (by simp)
    · intro h1
      exact Or.inl ((harr c.args y).mpr h1)

/-! ## Claim C2 -/

/-- `state.analyze` on a call named "mmap", specialized to a present size
argument. -/
theorem state.analyze_mmap_eq (s : state) (c : Call) (length : Arg)
    (hm : c.meta.name = "mmap") (h1 : c.args[1]? = some length) :
    s.analyze c =
      (if length.addrPage = 0 ∧ length.addrOffset = 0 then
        some ((collectArgArray c.args c.ret).foldl state.observeArg s)
      else
        match c.args[4]? with
        | none => none
        | some flags =>
          match c.args[3]? with
          | none => none
          | some fd =>
            if flags.val &&& MAP_ANONYMOUS = 0 ∧ fd.kind = .argConst ∧ fd.val = InvalidFD then
              some ((collectArgArray c.args c.ret).foldl state.observeArg s)
            else
              match c.args[0]? with
              | none => none
              | some addr =>
                ((collectArgArray c.args c.ret).foldl state.observeArg s).addressable
                  addr length true) := by
  unfold state.analyze
  rw [hm, h1]
  rfl

/-- `state.analyze` on a call named "munmap". -/
theorem state.analyze_munmap_eq (s : state) (c : Call) (hm : c.meta.name = "munmap") :
    s.analyze c =
      (match c.args[0]? with
        | none => none
        | some addr =>
          match c.args[1]? with
          | none => none
          | some size =>
            ((collectArgArray c.args c.ret).foldl state.observeArg s).addressable
              addr size false) := by
  unfold state.analyze
  rw [hm]
  rfl

theorem state.addressable_some (s : state) (addr size : Arg) (ok : Bool)
    (hak : addr.kind = .argPointer) (hsk : size.kind = .argPageSize)
    (hb : ¬addr.addrPage + pageCount size > maxPages) :
    s.addressable addr size ok =
      some { s with pages := setPagesLoop s.pages addr.addrPage ok (pageCount size) } := by
  unfold state.addressable
  rw [if_pos ⟨hak, hsk⟩, if_neg hb]

theorem state.addressable_none (s : state) (addr size : Arg) (ok : Bool)
    (hak : addr.kind = .argPointer) (hsk : size.kind = .argPageSize)
    (hb : addr.addrPage + pageCount size > maxPages) :
    s.addressable addr size ok = none := by
  unfold state.addressable
  rw [if_pos ⟨hak, hsk⟩, if_pos hb]

/-- C2, amended.  For a memory-map call with page range `[p, p + n)` where
`n` is the size argument's whole-page count plus one extra page when it
carries a non-zero intra-page byte offset — provided the call is not the
degenerate zero-length case and is not a non-anonymous mapping backed by the
constant invalid-FD sentinel (both of which the analysis deliberately skips
without touching, or bounds-checking, any page): observing the call either
aborts (when the range exceeds the 4096-entry page-table bound) or leaves
every page of the range mapped; a subsequent unmap call covering the same
range leaves every page of the range unmapped; and an unmap whose range
exceeds the bound always aborts rather than silently truncating. -/
theorem c2_page_accounting (s : state) (cm cu : Call) (addr length fd flags : Arg)
    (hm : cm.meta.name = "mmap")
    (h0 : cm.args[0]? = some addr) (h1 : cm.args[1]? = some length)
    (h3 : cm.args[3]? = some fd) (h4 : cm.args[4]? = some flags)
    (hak : addr.kind = .argPointer) (hlk : length.kind = .argPageSize)
    (hdeg : ¬(length.addrPage = 0 ∧ length.addrOffset = 0))
    (hskip : ¬(flags.val &&& MAP_ANONYMOUS = 0 ∧ fd.kind = .argConst ∧ fd.val = InvalidFD)) :
    pageCount length = length.addrPage + (if length.addrOffset ≠ 0 then 1 else 0) ∧
    (addr.addrPage + pageCount length > maxPages → s.analyze cm = none) ∧
    (∀ s1, s.analyze cm = some s1 →
      (∀ i, addr.addrPage ≤ i → i < addr.addrPage + pageCount length → s1.pages i = true) ∧
      (∀ addr2 len2 : Arg, cu.meta.name = "munmap" →
        cu.args[0]? = some addr2 → cu.args[1]? = some len2 →
        addr2.kind = .argPointer → len2.kind = .argPageSize →
        addr2.addrPage = addr.addrPage → pageCount len2 = pageCount length →
        ∃ s2, s1.analyze cu = some s2 ∧
          ∀ i, addr.addrPage ≤ i → i < addr.addrPage + pageCount length →
            s2.pages i = false)) ∧
    (∀ (s0 : state) (addr2 len2 : Arg), cu.meta.name = "munmap" →
      cu.args[0]? = some addr2 → cu.args[1]? = some len2 →
      addr2.addrPage + pageCount len2 > maxPages → s0.analyze cu = none) := by
  have heq : s.analyze cm =
      ((collectArgArray cm.args cm.ret).foldl state.observeArg s).addressable
        addr length true := by
    rw [state.analyze_mmap_eq s cm length hm h1, if_neg hdeg, h4, h3]
    dsimp only
    rw [if_neg hskip, h0]
  have hun_none : ∀ (s0 : state) (addr2 len2 : Arg), cu.meta.name = "munmap" →
      cu.args[0]? = some addr2 → cu.args[1]? = some len2 →
      addr2.addrPage + pageCount len2 > maxPages → s0.analyze cu = none := by
    intro s0 addr2 len2 hcm hc0 hc1 hbb
    rw [state.analyze_munmap_eq s0 cu hcm, hc0, hc1]
    dsimp only
    by_cases hk2 : addr2.kind = .argPointer ∧ len2.kind = .argPageSize
    · exact state.addressable_none _ _ _ _ hk2.1 hk2.2 hbb
    · unfold state.addressable
      rw [if_neg hk2]
  refine ⟨rfl, ?_, ?_, hun_none⟩
  · intro hb
    rw [heq]
    exact state.addressable_none _ _ _ _ hak hlk hb
  · intro s1 hs1
    by_cases hb : addr.addrPage + pageCount length > maxPages
    · rw [heq, state.addressable_none _ _ _ _ hak hlk hb] at hs1
      exact absurd hs1 (by simp)
    · rw [heq, state.addressable_some _ _ _ _ hak hlk hb] at hs1
      obtain rfl : _ = s1 := Option.some_inj.mp hs1
      constructor
      · intro i hi1 hi2
        simp only
        rw [setPagesLoop_eq]
        rw [if_pos ⟨hi1, hi2⟩]
      · intro addr2 len2 hcm hc0 hc1 hk2a hk2l hp2 hn2
        rw [state.analyze_munmap_eq _ cu hcm, hc0, hc1]
        dsimp only
        rw [state.addressable_some _ _ _ _ hk2a hk2l (by rw [hp2, hn2]; exact hb)]
        refine ⟨_, rfl, ?_⟩
        intro i hi1 hi2
        simp only
        rw [setPagesLoop_eq, hp2, hn2, if_pos ⟨hi1, hi2⟩]

/-- C2, counterexample.  `mmapSkipCall` is a memory-map call whose page range
is `[0, 1)` (one whole page, no extra offset page), but because it is
non-anonymous and backed by the constant invalid-FD sentinel the analysis
skips it: afterwards page 0 still reads unmapped, contradicting the claim
that every page of the range reads mapped. -/
theorem c2_counterexample :
    mmapSkipCall.meta.name = "mmap" ∧
    (mmapSkipCall.args[1]?).map pageCount = some 1 ∧
    (mmapSkipCall.args[0]?).map Arg.addrPage = some 0 ∧
    ((newState ⟨⟩).analyze mmapSkipCall).map (fun s => s.pages 0) = some false :=
  ⟨rfl, rfl, rfl, rfl⟩

theorem c2_page_accounting_witness :
    (newState ⟨⟩).analyze mmapOkCall = some c2State1 ∧
    (c2State1.pages 2 = true ∧ c2State1.pages 3 = true ∧ c2State1.pages 4 = true) ∧
    c2State1.analyze munmapCall = some c2State2 ∧
    (c2State2.pages 2 = false ∧ c2State2.pages 4 = false) ∧
    (newState ⟨⟩).analyze mmapBigCall = none ∧
    (newState ⟨⟩).analyze munmapBigCall = none := by
  have h1 : (newState ⟨⟩).analyze mmapOkCall = some c2State1 := rfl
  have h2 : c2State1.analyze munmapCall = some c2State2 := rfl
  obtain ⟨hcount, habort, hsome, hun⟩ :=
    c2_page_accounting (newState ⟨⟩) mmapOkCall munmapCall (mAddr 2) (mLen 2 1)
      (mOther 0) (mOther MAP_ANONYMOUS) rfl rfl rfl rfl rfl rfl rfl (by decide) (by decide)
  obtain ⟨hmap, hunm⟩ := hsome c2State1 h1
  obtain ⟨s2, hs2, hunp⟩ := hunm (mAddr 2) (mLen 2 1) rfl rfl rfl rfl rfl rfl rfl
  rw [h2] at hs2
  obtain rfl : s2 = c2State2 := (Option.some_inj.mp hs2).symm
  obtain ⟨_, hbigm, _, hbigun⟩ :=
    c2_page_accounting (newState ⟨⟩) mmapBigCall munmapBigCall (mAddr 4094) (mLen 3 0)
      (mOther 0) (mOther MAP_ANONYMOUS) rfl rfl rfl rfl rfl rfl rfl (by decide) (by decide)
  refine ⟨h1, ⟨?_, ?_, ?_⟩, h2, ⟨?_, ?_⟩, ?_, ?_⟩
  · exact hmap 2 (by decide) (by decide)
  · exact hmap 3 (by decide) (by decide)
  · exact hmap 4 (by decide) (by decide)
  · exact hunp 2 (by decide) (by decide)
  · exact hunp 4 (by decide) (by decide)
  · exact hbigm (by decide)
  · exact hbigun (newState ⟨⟩) (mAddr 4094) (mLen 3 0) rfl rfl rfl (by decide)

/-! ## Claim C8 -/

/-- `sanitizeCall` on a call named "mknod". -/
theorem sanitizeCall_mknod_eq (c : Call) (hname : c.meta.callName = "mknod") :
    sanitizeCall c =
      (match c.args[1]? with
        | none => none
        | some m1 =>
          match some m1 with
          | none => none
          | some mode =>
            if mode.kind = .argConst then
              if mode.val ≠ S_IFREG ∧ mode.val ≠ S_IFIFO ∧ mode.val ≠ S_IFSOCK then
                some { c with args := c.args.set 1 (mode.setVal S_IFIFO) }
              else some c
            else none) := by
  unfold sanitizeCall mknodModeIdx
  rw [hname]
  rfl

/-- `sanitizeCall` on a call named "mknodat". -/
theorem sanitizeCall_mknodat_eq (c : Call) (hname : c.meta.callName = "mknodat") :
    sanitizeCall c =
      (match c.args[1]? with
        | none => none
        | some m1 =>
          match c.args[2]? with
          | none => none
          | some mode =>
            if mode.kind = .argConst then
              if mode.val ≠ S_IFREG ∧ mode.val ≠ S_IFIFO ∧ mode.val ≠ S_IFSOCK then
                some { c with args := c.args.set 2 (mode.setVal S_IFIFO) }
              else some c
            else none) := by
  unfold sanitizeCall mknodModeIdx
  rw [hname]
  rfl

/-- `sanitizeCall` on a process-exit call. -/
theorem sanitizeCall_exit_eq (c : Call)
    (hname : c.meta.callName = "exit" ∨ c.meta.callName = "exit_group") :
    sanitizeCall c =
      (match c.args[0]? with
        | none => none
        | some code =>
          if code.val % 128 = 67 ∨ code.val % 128 = 68 then
            some { c with args := c.args.set 0 (code.setVal 1) }
          else some c) := by
  unfold sanitizeCall
  rcases hname with hname | hname
  · rw [hname]
    rfl
  · rw [hname]
    rfl

/-- C8.  Device-node creation: for a call named mknod (mode argument at
position 1) or mknodat (mode argument at position 2) whose constant mode is
none of regular file, fifo or socket — in particular any block-device mode —
sanitization rewrites the mode value to fifo, whatever the other arguments
are.  Process exit: for a call named exit or exit_group whose exit code has
low 7 bits 67 or 68, sanitization rewrites the code value to 1. -/
theorem c8_sanitizer_rewrites (c : Call) :
    (c.meta.callName = "mknod" →
      ∀ mode : Arg, c.args[1]? = some mode → mode.kind = .argConst →
      mode.val ≠ S_IFREG ∧ mode.val ≠ S_IFIFO ∧ mode.val ≠ S_IFSOCK →
      sanitizeCall c = some { c with args := c.args.set 1 (mode.setVal S_IFIFO) }) ∧
    (c.meta.callName = "mknodat" →
      ∀ m1 mode : Arg, c.args[1]? = some m1 → c.args[2]? = some mode →
      mode.kind = .argConst →
      mode.val ≠ S_IFREG ∧ mode.val ≠ S_IFIFO ∧ mode.val ≠ S_IFSOCK →
      sanitizeCall c = some { c with args := c.args.set 2 (mode.setVal S_IFIFO) }) ∧
    ((c.meta.callName = "exit" ∨ c.meta.callName = "exit_group") →
      ∀ code : Arg, c.args[0]? = some code →
      code.val % 128 = 67 ∨ code.val % 128 = 68 →
      sanitizeCall c = some { c with args := c.args.set 0 (code.setVal 1) }) := by
  refine ⟨?_, ?_, ?_⟩
  · intro hname mode h1 hk hv
    rw [sanitizeCall_mknod_eq c hname, h1]
    dsimp only
    rw [if_pos hk, if_pos hv]
  · intro hname m1 mode h1 h2 hk hv
    rw [sanitizeCall_mknodat_eq c hname, h1]
    dsimp only
    rw [h2]
    dsimp only
    rw [if_pos hk, if_pos hv]
  · intro hname code h0 hv
    rw [sanitizeCall_exit_eq c hname, h0]
    dsimp only
    rw [if_pos hv]

theorem c8_sanitizer_rewrites_witness :
    sanitizeCall mknodCall =
      some { mknodCall with
        args := mknodCall.args.set 1 ((constArg tyMode S_IFBLK).setVal S_IFIFO) } ∧
    sanitizeCall mknodatCall =
      some { mknodatCall with
        args := mknodatCall.args.set 2 ((constArg tyMode S_IFBLK).setVal S_IFIFO) } ∧
    (mOther 195).val % 128 = 67 ∧
    sanitizeCall exitCall =
      some { exitCall with args := exitCall.args.set 0 ((mOther 195).setVal 1) } ∧
    sanitizeCall exitGroupCall =
      some { exitGroupCall with args := exitGroupCall.args.set 0 ((mOther 68).setVal 1) } := by
  obtain ⟨hmk, _, _⟩ := c8_sanitizer_rewrites mknodCall
  obtain ⟨_, hmka, _⟩ := c8_sanitizer_rewrites mknodatCall
  obtain ⟨_, _, hex⟩ := c8_sanitizer_rewrites exitCall
  obtain ⟨_, _, hexg⟩ := c8_sanitizer_rewrites exitGroupCall
  exact ⟨hmk rfl (constArg tyMode S_IFBLK) rfl rfl (by decide),
    hmka rfl (mOther 4) (constArg tyMode S_IFBLK) rfl rfl rfl (by decide),
    by decide,
    hex (Or.inl rfl) (mOther 195) rfl (by decide),
    hexg (Or.inr rfl) (mOther 68) rfl (by decide)⟩

/-! ## Claim C10 -/

theorem frame_set (args : List Arg) (i : Nat) (x y : Arg) (hx : args[i]? = some x)
    (hy : Arg.setVal y 0 = Arg.setVal x 0) (j : Nat) :
    ((args.set i y)[j]?).map (fun a => a.setVal 0) =
      (args[j]?).map (fun a => a.setVal 0) := by
  by_cases hj : i = j
  · subst hj
    have hlen : i < args.length := by
      by_contra hge
      rw [List.getElem?_eq_none (by omega)] at hx
      exact absurd hx (by simp)
    rw [List.getElem?_set_self hlen, hx]
    simp [hy]
  · rw [List.getElem?_set_ne hj]

theorem frame_set_setVal (args : List Arg) (i : Nat) (x : Arg) (v : Nat)
    (hx : args[i]? = some x) (j : Nat) :
    ((args.set i (x.setVal v))[j]?).map (fun a => a.setVal 0) =
      (args[j]?).map (fun a => a.setVal 0) :=
  frame_set args i x (x.setVal v) hx (by simp) j

/-- C10.  `sanitizeCall` never changes a call's structure: whenever it
returns a rewritten call, the metadata, the return node, the argument count
and every argument's whole content except its numeric `val` field are
unchanged (erasing `val` on both sides gives equal nodes, so `inner`, `res`,
`opt`, `data`, kinds and types are untouched); and a call whose name matches
no rule-table entry is returned entirely unchanged. -/
theorem c10_sanitizer_frame :
    (∀ c c1 : Call, sanitizeCall c = some c1 →
      c1.meta = c.meta ∧ c1.ret = c.ret ∧ c1.args.length = c.args.length ∧
      ∀ j : Nat, (c1.args[j]?).map (fun a => a.setVal 0) =
        (c.args[j]?).map (fun a => a.setVal 0)) ∧
    (∀ c : Call,
      c.meta.callName ≠ "mmap" → c.meta.callName ≠ "mremap" →
      c.meta.callName ≠ "mknod" → c.meta.callName ≠ "mknodat" →
      c.meta.callName ≠ "syslog" → c.meta.callName ≠ "ioctl" →
      c.meta.callName ≠ "ptrace" → c.meta.callName ≠ "exit" →
      c.meta.callName ≠ "exit_group" → sanitizeCall c = some c) := by
  constructor
  · intro c c1 h
    unfold sanitizeCall at h
    repeat' split at h
    all_goals first
      | exact Option.noConfusion h
      | (obtain rfl : _ = c1 := Option.some_inj.mp h
         exact ⟨rfl, rfl, rfl, fun j => rfl⟩)
      | (obtain rfl : _ = c1 := Option.some_inj.mp h
         refine ⟨rfl, rfl, by simp [List.length_set], fun j => ?_⟩
         exact frame_set_setVal _ _ _ _ (by assumption) j)
      | (obtain rfl : _ = c1 := Option.some_inj.mp h
         refine ⟨rfl, rfl, by simp [List.length_set], fun j => ?_⟩
         refine frame_set_setVal _ _ _ _ ?_ j
         simp_all [mknodModeIdx])
  · intro c hn1 hn2 hn3 hn4 hn5 hn6 hn7 hn8 hn9
    unfold sanitizeCall
    split <;> first | rfl | simp_all

theorem c10_sanitizer_frame_witness :
    sanitizeCall getpidCall = some getpidCall ∧
    ((sanitizeCall exitCall).getD exitCall).meta = exitCall.meta ∧
    ((sanitizeCall exitCall).getD exitCall).ret = exitCall.ret ∧
    ((sanitizeCall exitCall).getD exitCall).args.length = exitCall.args.length ∧
    (((sanitizeCall exitCall).getD exitCall).args[0]?).map (fun a => a.setVal 0) =
      (exitCall.args[0]?).map (fun a => a.setVal 0) := by
  obtain ⟨hframe, hdflt⟩ := c10_sanitizer_frame
  have h : sanitizeCall exitCall = some ((sanitizeCall exitCall).getD exitCall) := rfl
  obtain ⟨h1, h2, h3, h4⟩ := hframe exitCall _ h
  exact ⟨hdflt getpidCall (by decide) (by decide) (by decide) (by decide) (by decide)
    (by decide) (by decide) (by decide) (by decide), h1, h2, h3, h4 0⟩

/-! ## Lemmas about the size-resolution fill loop -/

theorem fillStep_length (am : String → Option Nat) (ps : Nat) (cur : List Arg) (i : Nat)
    (cur1 : List Arg) (h : fillStep am ps cur i = some cur1) : cur1.length = cur.length := by
  unfold fillStep at h
  repeat' split at h
  all_goals first
    | exact Option.noConfusion h
    | (obtain rfl : _ = cur1 := Option.some_inj.mp h; simp [List.length_set])
    | (obtain rfl : _ = cur1 := Option.some_inj.mp h; rfl)

theorem fillStep_ne (am : String → Option Nat) (ps : Nat) (cur : List Arg) (i : Nat)
    (cur1 : List Arg) (h : fillStep am ps cur i = some cur1) (j : Nat) (hj : j ≠ i) :
    cur1[j]? = cur[j]? := by
  unfold fillStep at h
  repeat' split at h
  all_goals first
    | exact Option.noConfusion h
    | (obtain rfl : _ = cur1 := Option.some_inj.mp h; rfl)
    | (obtain rfl : _ = cur1 := Option.some_inj.mp h; exact List.getElem?_set_ne (Ne.symm hj))

theorem fillStep_of_parent (am : String → Option Nat) (ps : Nat) (cur : List Arg) (i : Nat)
    (a w : Arg) (bs : Nat) (ha : cur[i]? = some a) (hw : a.innerArg = some w)
    (hk : w.typ.kind = .len "parent" bs) :
    fillStep am ps cur i = some (cur.set i (a.setInnerArg (w.setVal ps))) := by
  unfold fillStep
  rw [ha]
  dsimp only
  rw [hw]
  dsimp only
  rw [hk]
  rfl

theorem fillStep_of_missing (am : String → Option Nat) (ps : Nat) (cur : List Arg) (i : Nat)
    (a w : Arg) (buf : String) (bs : Nat) (ha : cur[i]? = some a)
    (hw : a.innerArg = some w) (hk : w.typ.kind = .len buf bs) (hb : buf ≠ "parent")
    (hm : am buf = none) : fillStep am ps cur i = none := by
  unfold fillStep
  rw [ha]
  dsimp only
  rw [hw]
  dsimp only
  rw [hk]
  dsimp only
  rw [if_neg hb, hm]

theorem fillSizes_length (am : String → Option Nat) (ps : Nat) :
    ∀ (k : Nat) (cur : List Arg) (i : Nat) (out : List Arg),
      fillSizes am ps k cur i = some out → out.length = cur.length
  | 0, cur, i, out => by
    intro h
    obtain rfl : cur = out := Option.some_inj.mp h
    rfl
  | k + 1, cur, i, out => by
    intro h
    unfold fillSizes at h
    cases hstep : fillStep am ps cur i with
    | none => rw [hstep] at h; exact absurd h (by simp)
    | some cur1 =>
      rw [hstep] at h
      rw [fillSizes_length am ps k cur1 (i + 1) out h, fillStep_length am ps cur i cur1 hstep]

theorem fillSizes_lt (am : String → Option Nat) (ps : Nat) :
    ∀ (k : Nat) (cur : List Arg) (i : Nat) (out : List Arg),
      fillSizes am ps k cur i = some out → ∀ j, j < i → out[j]? = cur[j]?
  | 0, cur, i, out => by
    intro h j hj
    obtain rfl : cur = out := Option.some_inj.mp h
    rfl
  | k + 1, cur, i, out => by
    intro h j hj
    unfold fillSizes at h
    cases hstep : fillStep am ps cur i with
    | none => rw [hstep] at h; exact absurd h (by simp)
    | some cur1 =>
      rw [hstep] at h
      rw [fillSizes_lt am ps k cur1 (i + 1) out h j (by omega),
        fillStep_ne am ps cur i cur1 hstep j (by omega)]

theorem fillSizes_parent_at (am : String → Option Nat) (ps : Nat) :
    ∀ (k : Nat) (cur : List Arg) (i : Nat) (out : List Arg),
      fillSizes am ps k cur i = some out →
      ∀ (m : Nat) (a w : Arg) (bs : Nat), cur[m]? = some a → a.innerArg = some w →
        w.typ.kind = .len "parent" bs → i ≤ m → m < i + k →
        out[m]? = some (a.setInnerArg (w.setVal ps))
  | 0, cur, i, out => by
    intro h m a w bs ha hw hk h1 h2
    omega
  | k + 1, cur, i, out => by
    intro h m a w bs ha hw hk h1 h2
    unfold fillSizes at h
    by_cases hm : m = i
    · subst hm
      rw [fillStep_of_parent am ps cur m a w bs ha hw hk] at h
      have hmlen : m < cur.length := by
        by_contra hge
        rw [List.getElem?_eq_none (by omega)] at ha
        exact absurd ha (by simp)
      rw [fillSizes_lt am ps k _ (m + 1) out h m (by omega),
        List.getElem?_set_self (by simpa using hmlen)]
    · cases hstep : fillStep am ps cur i with
      | none => rw [hstep] at h; exact absurd h (by simp)
      | some cur1 =>
        rw [hstep] at h
        exact fillSizes_parent_at am ps k cur1 (i + 1) out h m a w bs
          (by rw [fillStep_ne am ps cur i cur1 hstep m hm]; exact ha) hw hk
          (by omega) (by omega)

theorem fillSizes_missing (am : String → Option Nat) (ps : Nat) :
    ∀ (k : Nat) (cur : List Arg) (i : Nat),
      (∃ (m : Nat) (a w : Arg) (buf : String) (bs : Nat), i ≤ m ∧ m < i + k ∧
        cur[m]? = some a ∧ a.innerArg = some w ∧ w.typ.kind = .len buf bs ∧
        buf ≠ "parent" ∧ am buf = none) →
      fillSizes am ps k cur i = none
  | 0, cur, i => by
    rintro ⟨m, a, w, buf, bs, h1, h2, _⟩
    omega
  | k + 1, cur, i => by
    rintro ⟨m, a, w, buf, bs, h1, h2, ha, hw, hk, hb, hmiss⟩
    unfold fillSizes
    by_cases hm : m = i
    · subst hm
      rw [fillStep_of_missing am ps cur m a w buf bs ha hw hk hb hmiss]
    · cases hstep : fillStep am ps cur i with
      | none => rfl
      | some cur1 =>
        exact fillSizes_missing am ps k cur1 (i + 1)
          ⟨m, a, w, buf, bs, by omega, by omega,
            by rw [fillStep_ne am ps cur i cur1 hstep m hm]; exact ha, hw, hk, hb, hmiss⟩

theorem buildArgsMap_none (buf : String) : ∀ (args : List Arg) (i : Nat),
    (∀ b ∈ args, b.typ.kind ≠ .pad → b.typ.name ≠ buf) → buildArgsMap args i buf = none
  | [], i => by
    intro _
    rfl
  | a :: rest, i => by
    intro h
    have hrest := buildArgsMap_none buf rest (i + 1)
      (fun b hb => h b (List.mem_cons_of_mem a hb))
    unfold buildArgsMap
    by_cases hp : a.typ.kind = .pad
    · rw [if_pos hp]
      exact hrest
    · rw [if_neg hp]
      simp only [hrest]
      rw [if_neg (fun hc => h a (List.mem_cons_self a rest) hp hc.symm)]

/-! ## Claim C3 -/

/-- C3, counterexample.  In the two-field sequence whose length field targets
the sibling array "arr" of 3 elements occupying 12 bytes with a declared
stride of 0, `assignSizes` sets the length field's value to the element count
3 — not to the byte count 12 as the claim states. -/
theorem c3_counterexample :
    (assignSizes (c3Fields 0)).bind (fun l => l[0]?) = some (constArg (tyLenArr 0) 3) ∧
    (constArg (tyLenArr 0) 3).val = 3 ∧ (3 : Nat) ≠ 12 :=
  ⟨rfl, rfl, by decide⟩

/-- C3, amended.  For a field sequence containing a length field that targets
a named sibling array field with a declared 4-byte stride, where the array
holds 3 elements occupying 12 bytes, `assignSizes` sets the length field's
value to 3 (12 bytes / 4); with the stride declared as 0 it also sets the
value to 3, the array's element count (a stride of 0 means no byte stride is
declared, so the element count is used, not the byte count). -/
theorem c3_round_trip :
    ((assignSizes (c3Fields 4)).bind (fun l => l[0]?)).map Arg.val = some 3 ∧
    ((assignSizes (c3Fields 0)).bind (fun l => l[0]?)).map Arg.val = some 3 :=
  ⟨rfl, rfl⟩

/-! ## Claim C6 -/

/-- C6.  When a length field's reference target is not the sentinel "parent"
and no non-padding field of the sequence bears the referenced name,
`assignSizes` aborts fatally (`none`, the Go panic): it never silently skips
or zero-fills the length field. -/
theorem c6_missing_reference (args : List Arg) (i : Nat) (a w : Arg) (buf : String)
    (bs : Nat) (ha : args[i]? = some a) (hw : a.innerArg = some w)
    (hk : w.typ.kind = .len buf bs) (hb : buf ≠ "parent")
    (hnames : ∀ b ∈ args, b.typ.kind ≠ .pad → b.typ.name ≠ buf) :
    assignSizes args = none := by
  unfold assignSizes
  apply fillSizes_missing
  have hlen : i < args.length := by
    by_contra hge
    rw [List.getElem?_eq_none (by omega)] at ha
    exact absurd ha (by simp)
  exact ⟨i, a, w, buf, bs, by omega, by omega, ha, hw, hk, hb,
    buildArgsMap_none buf args 0 hnames⟩

theorem c6_missing_reference_witness : assignSizes c6Fields = none :=
  c6_missing_reference c6Fields 0 (constArg tyMissingLen 0) (constArg tyMissingLen 0)
    "missing" 0 rfl rfl rfl (by decide) (by decide)

/-! ## Claim C9 -/

/-- C9.  A length field whose target is the sentinel "parent" receives the
sum of `Size()` over every field of the enclosing sequence — padding fields
included, and the length field's own byte size included (`Arg.sizeList args`
sums over all fields). -/
theorem c9_parent_total (args : List Arg) (i : Nat) (a w : Arg) (bs : Nat)
    (out : List Arg) (ha : args[i]? = some a) (hw : a.innerArg = some w)
    (hk : w.typ.kind = .len "parent" bs) (h : assignSizes args = some out) :
    out[i]? = some (a.setInnerArg (w.setVal (Arg.sizeList args))) ∧
    (w.setVal (Arg.sizeList args)).val = Arg.sizeList args := by
  unfold assignSizes at h
  have hlen : i < args.length := by
    by_contra hge
    rw [List.getElem?_eq_none (by omega)] at ha
    exact absurd ha (by simp)
  exact ⟨fillSizes_parent_at _ _ args.length args 0 out h i a w bs ha hw hk
    (by omega) (by omega), by simp⟩

theorem c9_parent_total_witness :
    Arg.sizeList c9Fields = 10 ∧
    ((assignSizes c9Fields).getD [])[2]? =
      some ((constArg tyParentLen 0).setInnerArg ((constArg tyParentLen 0).setVal 10)) := by
  have h : assignSizes c9Fields = some ((assignSizes c9Fields).getD []) := rfl
  obtain ⟨h1, _⟩ := c9_parent_total c9Fields 2 (constArg tyParentLen 0)
    (constArg tyParentLen 0) 0 _ rfl rfl rfl h
  exact ⟨rfl, h1⟩

/-! ## Lemmas towards idempotence of size resolution (C7) -/

theorem List.set_getElem?_self {α : Type} (l : List α) (i : Nat) (x : α)
    (h : l[i]? = some x) : l.set i x = l := by
  apply List.ext_getElem?
  intro j
  by_cases hj : i = j
  · subst hj
    have hlen : i < l.length := by
      by_contra hge
      rw [List.getElem?_eq_none (by omega)] at h
      exact absurd h (by simp)
    rw [List.getElem?_set_self hlen, h]
  · rw [List.getElem?_set_ne hj]

theorem generateSize_typ (o : Option Arg) (t : ArgType) (bs : Nat) :
    (generateSize o t bs).typ = t := by
  unfold generateSize
  rcases o with _ | a
  · rfl
  · dsimp only
    rcases hk : a.typ.kind with _ | _ | _ | _ | _ | _ | _ | _ | _ | _ <;>
      (dsimp only
       first
         | rfl
         | (split <;> rfl))

theorem Arg.size_of_len (x : Arg) (buf : String) (bs : Nat)
    (hk : x.typ.kind = .len buf bs) : x.size = x.typ.tsize := by
  obtain ⟨t, k, v, p, o, pn, d, i, r, u⟩ := x
  simp only [Arg.typ_mk] at hk
  unfold Arg.size
  rw [if_neg (by simp [hk]), if_neg (by simp [hk, TypeKind.isBuffer]), if_neg (by simp [hk])]
  rfl

theorem gObs_setVal (x : Arg) (v : Nat) : gObs (x.setVal v) = gObs x := by
  unfold gObs
  rw [Arg.setVal_typ]
  rcases hk : x.typ.kind with _ | _ | _ | _ | _ | _ | _ | _ | _ | _ <;>
    simp [Arg.setVal_addrPagesNum, Arg.setVal_size, Arg.setVal_inner]

theorem gObs_generateSize (w w2 : Arg) (t : ArgType) (bs : Nat) (h : gObs w = gObs w2) :
    generateSize (some w) t bs = generateSize (some w2) t bs := by
  have htyp : w.typ = w2.typ := congrArg Prod.fst h
  have h2 : (gObs w).2 = (gObs w2).2 := congrArg Prod.snd h
  have hk2 : w2.typ.kind = w.typ.kind := by rw [htyp]
  unfold gObs at h2
  unfold generateSize
  dsimp only at h2 ⊢
  rcases hk : w.typ.kind with _ | _ | _ | _ | _ | _ | _ | _ | _ | _ <;>
    (rw [hk2, hk] at h2 ⊢
     dsimp only at h2 ⊢
     injection h2 with h2a h2b
     first
       | rw [h2a, h2b]
       | rw [h2a]
       | simp [h2a])

theorem gObs_generateSizeOpt (x y : Option Arg) (t : ArgType) (bs : Nat)
    (h : x.map gObs = y.map gObs) : generateSize x t bs = generateSize y t bs := by
  rcases x with _ | w <;> rcases y with _ | w2
  · rfl
  · exact absurd h (by simp)
  · exact absurd h (by simp)
  · exact gObs_generateSize w w2 t bs (by simpa using h)

theorem fillEquiv_refl (a : Arg) : fillEquiv a a := ⟨rfl, rfl, rfl⟩

theorem fillEquiv_symm {a b : Arg} (h : fillEquiv a b) : fillEquiv b a :=
  ⟨h.1.symm, h.2.1.symm, h.2.2.symm⟩

theorem fillEquiv_trans {a b c : Arg} (h1 : fillEquiv a b) (h2 : fillEquiv b c) :
    fillEquiv a c :=
  ⟨h1.1.trans h2.1, h1.2.1.trans h2.2.1, h1.2.2.trans h2.2.2⟩

theorem fillEquivList_refl (xs : List Arg) : fillEquivList xs xs :=
  ⟨rfl, fun j a b ha hb => by
    rw [ha] at hb
    obtain rfl : a = b := Option.some_inj.mp hb
    exact fillEquiv_refl a⟩

/-- Writing a same-typed, same-sized length-field value through a field's
pointer chain leaves the field `fillEquiv`-equivalent to what it was. -/
theorem fillEquiv_setInnerArg (a w v : Arg) (hw : a.innerArg = some w)
    (buf : String) (bs : Nat) (hk : w.typ.kind = .len buf bs)
    (hvt : v.typ = w.typ) (hvs : v.size = w.size) :
    fillEquiv (a.setInnerArg v) a := by
  have hvk : v.typ.kind ≠ .pointer := by
    rw [hvt, hk]
    intro hc
    cases hc
  refine ⟨Arg.setInnerArg_typ a w v hw hvt, Arg.setInnerArg_size a w v hw hvt hvs, ?_⟩
  rw [Arg.innerArg_setInnerArg a w v hw hvk, hw, Option.map_some', Option.map_some']
  congr 1
  unfold gObs
  rw [hvt, hk]
  dsimp only
  rw [hvs]

theorem fillStep_skip_none (am : String → Option Nat) (ps : Nat) (cur : List Arg) (i : Nat)
    (ha : cur[i]? = none) : fillStep am ps cur i = some cur := by
  unfold fillStep
  rw [ha]

theorem fillStep_skip_inner (am : String → Option Nat) (ps : Nat) (cur : List Arg) (i : Nat)
    (a : Arg) (ha : cur[i]? = some a) (hw : a.innerArg = none) :
    fillStep am ps cur i = some cur := by
  unfold fillStep
  rw [ha]
  dsimp only
  rw [hw]

theorem fillStep_skip_notlen (am : String → Option Nat) (ps : Nat) (cur : List Arg) (i : Nat)
    (a w : Arg) (ha : cur[i]? = some a) (hw : a.innerArg = some w)
    (hnl : ∀ (buf : String) (bs : Nat), w.typ.kind ≠ .len buf bs) :
    fillStep am ps cur i = some cur := by
  unfold fillStep
  rw [ha]
  dsimp only
  rw [hw]
  dsimp only
  split
  · next buf bs heq => exact absurd heq (hnl _ _)
  · rfl

theorem fillStep_of_named (am : String → Option Nat) (ps : Nat) (cur : List Arg) (i : Nat)
    (a w : Arg) (buf : String) (bs j : Nat) (bufArg : Arg) (ha : cur[i]? = some a)
    (hw : a.innerArg = some w) (hk : w.typ.kind = .len buf bs) (hb : buf ≠ "parent")
    (hj : am buf = some j) (hbj : cur[j]? = some bufArg) :
    fillStep am ps cur i =
      some (cur.set i (a.setInnerArg (generateSize bufArg.innerArg w.typ bs))) := by
  unfold fillStep
  rw [ha]
  dsimp only
  rw [hw]
  dsimp only
  rw [hk]
  dsimp only
  rw [if_neg hb, hj]
  dsimp only
  rw [hbj]

theorem fillStep_of_named_nobuf (am : String → Option Nat) (ps : Nat) (cur : List Arg)
    (i : Nat) (a w : Arg) (buf : String) (bs j : Nat) (ha : cur[i]? = some a)
    (hw : a.innerArg = some w) (hk : w.typ.kind = .len buf bs) (hb : buf ≠ "parent")
    (hj : am buf = some j) (hbj : cur[j]? = none) :
    fillStep am ps cur i = none := by
  unfold fillStep
  rw [ha]
  dsimp only
  rw [hw]
  dsimp only
  rw [hk]
  dsimp only
  rw [if_neg hb, hj]
  dsimp only
  rw [hbj]

theorem fillEquivList_get {xs ys : List Arg} (h : fillEquivList xs ys) (m : Nat) (a : Arg)
    (ha : xs[m]? = some a) : ∃ b, ys[m]? = some b ∧ fillEquiv a b := by
  have hx : m < xs.length := by
    by_contra hge
    rw [List.getElem?_eq_none (by omega)] at ha
    exact absurd ha (by simp)
  have hm : m < ys.length := by
    rw [← h.1]
    exact hx
  exact ⟨_, List.getElem?_eq_getElem hm, h.2 m a _ ha (List.getElem?_eq_getElem hm)⟩

theorem fillEquivList_set {xs ys : List Arg} (h : fillEquivList xs ys) (i : Nat) (x : Arg)
    (hx : ∀ b, ys[i]? = some b → fillEquiv x b) : fillEquivList (xs.set i x) ys := by
  refine ⟨by simp [List.length_set, h.1], ?_⟩
  intro j a b ha hb
  by_cases hj : i = j
  · subst hj
    have hlen : i < xs.length := by
      by_contra hge
      rw [List.set_eq_of_length_le (by omega)] at ha
      rw [List.getElem?_eq_none (by omega)] at ha
      exact absurd ha (by simp)
    rw [List.getElem?_set_self hlen] at ha
    obtain rfl : x = a := Option.some_inj.mp ha
    exact hx b hb
  · rw [List.getElem?_set_ne hj] at ha
    exact h.2 j a b ha hb

/-- The fill loop only writes values determined by the stable observations of
the fields (their types, sizes and resolved-target observations), and its
writes leave those observations intact: re-running it from any point of an
already-filled sequence rewrites every field to the value it already has. -/
theorem fillSizes_idem (am : String → Option Nat) (ps : Nat) (args0 : List Arg) :
    ∀ (k : Nat) (cur : List Arg) (i : Nat) (out : List Arg),
      fillEquivList cur args0 →
      fillSizes am ps k cur i = some out →
      fillEquivList out args0 ∧ fillSizes am ps k out i = some out
  | 0, cur, i, out => by
    intro hequiv h
    obtain rfl : cur = out := Option.some_inj.mp h
    exact ⟨hequiv, rfl⟩
  | k + 1, cur, i, out => by
    intro hequiv h
    unfold fillSizes at h
    cases hstep : fillStep am ps cur i with
    | none => rw [hstep] at h; exact absurd h (by simp)
    | some cur1 =>
      rw [hstep] at h
      cases hci : cur[i]? with
      | none =>
        obtain rfl : cur = cur1 := by
          rw [fillStep_skip_none am ps cur i hci] at hstep
          exact Option.some_inj.mp hstep
        obtain ⟨hoeq, horun⟩ := fillSizes_idem am ps args0 k cur (i + 1) out hequiv h
        refine ⟨hoeq, ?_⟩
        have hoi : out[i]? = none := by
          rw [List.getElem?_eq_none]
          rw [hoeq.1, ← hequiv.1]
          by_contra hlt
          rw [List.getElem?_eq_getElem (by omega)] at hci
          exact absurd hci (by simp)
        unfold fillSizes
        rw [fillStep_skip_none am ps out i hoi]
        exact horun
      | some a =>
        obtain ⟨a0, ha0, haeq⟩ := fillEquivList_get hequiv i a hci
        have hleni : i < cur.length := by
          by_contra hge
          rw [List.getElem?_eq_none (by omega)] at hci
          exact absurd hci (by simp)
        cases hwi : a.innerArg with
        | none =>
          obtain rfl : cur = cur1 := by
            rw [fillStep_skip_inner am ps cur i a hci hwi] at hstep
            exact Option.some_inj.mp hstep
          obtain ⟨hoeq, horun⟩ := fillSizes_idem am ps args0 k cur (i + 1) out hequiv h
          refine ⟨hoeq, ?_⟩
          have hlo : i < out.length := by rw [hoeq.1, ← hequiv.1]; exact hleni
          obtain ⟨b, hbo⟩ : ∃ b, out[i]? = some b := ⟨_, List.getElem?_eq_getElem hlo⟩
          have hbeq := hoeq.2 i b a0 hbo ha0
          have hmap : b.innerArg.map gObs = a.innerArg.map gObs :=
            hbeq.2.2.trans haeq.2.2.symm
          rw [hwi] at hmap
          have hbw : b.innerArg = none := by
            rcases hx : b.innerArg with _ | v
            · rfl
            · rw [hx] at hmap
              simp at hmap
          unfold fillSizes
          rw [fillStep_skip_inner am ps out i b hbo hbw]
          exact horun
        | some w =>
          by_cases hlenk : ∃ (buf : String) (bs : Nat), w.typ.kind = .len buf bs
          · obtain ⟨buf, bs, hwk⟩ := hlenk
            by_cases hpar : buf = "parent"
            · subst hpar
              obtain rfl : cur1 = cur.set i (a.setInnerArg (w.setVal ps)) := by
                rw [fillStep_of_parent am ps cur i a w bs hci hwi hwk] at hstep
                exact (Option.some_inj.mp hstep).symm
              have hequiv1 :
                  fillEquivList (cur.set i (a.setInnerArg (w.setVal ps))) args0 := by
                refine fillEquivList_set hequiv i _ ?_
                intro b hb
                rw [ha0] at hb
                obtain rfl : a0 = b := Option.some_inj.mp hb
                exact fillEquiv_trans
                  (fillEquiv_setInnerArg a w (w.setVal ps) hwi "parent" bs hwk
                    (Arg.setVal_typ w ps) (Arg.setVal_size w ps)) haeq
              obtain ⟨hoeq, horun⟩ := fillSizes_idem am ps args0 k _ (i + 1) out hequiv1 h
              refine ⟨hoeq, ?_⟩
              have hoi : out[i]? = some (a.setInnerArg (w.setVal ps)) := by
                rw [fillSizes_lt am ps k _ (i + 1) out h i (by omega),
                  List.getElem?_set_self hleni]
              have hvk : (w.setVal ps).typ.kind ≠ .pointer := by
                rw [Arg.setVal_typ, hwk]
                intro hc
                cases hc
              have hbi : (a.setInnerArg (w.setVal ps)).innerArg = some (w.setVal ps) :=
                Arg.innerArg_setInnerArg a w _ hwi hvk
              have hbk : (w.setVal ps).typ.kind = .len "parent" bs := by
                rw [Arg.setVal_typ]
                exact hwk
              have hso := fillStep_of_parent am ps out i _ (w.setVal ps) bs hoi hbi hbk
              rw [Arg.setVal_setVal,
                Arg.setInnerArg_setInnerArg a w (w.setVal ps) (w.setVal ps) hwi hvk,
                List.set_getElem?_self out i _ hoi] at hso
              unfold fillSizes
              rw [hso]
              exact horun
            · cases hamb : am buf with
              | none =>
                rw [fillStep_of_missing am ps cur i a w buf bs hci hwi hwk hpar hamb]
                  at hstep
                exact absurd hstep (by simp)
              | some j =>
                cases hbj : cur[j]? with
                | none =>
                  rw [fillStep_of_named_nobuf am ps cur i a w buf bs j hci hwi hwk hpar
                    hamb hbj] at hstep
                  exact absurd hstep (by simp)
                | some bufArg =>
                  obtain rfl : cur1 =
                      cur.set i (a.setInnerArg (generateSize bufArg.innerArg w.typ bs)) := by
                    rw [fillStep_of_named am ps cur i a w buf bs j bufArg hci hwi hwk hpar
                      hamb hbj] at hstep
                    exact (Option.some_inj.mp hstep).symm
                  have hgt : (generateSize bufArg.innerArg w.typ bs).typ = w.typ :=
                    generateSize_typ _ _ _
                  have hgk : (generateSize bufArg.innerArg w.typ bs).typ.kind =
                      .len buf bs := by
                    rw [hgt]
                    exact hwk
                  have hgs : (generateSize bufArg.innerArg w.typ bs).size = w.size := by
                    rw [Arg.size_of_len _ buf bs hgk, Arg.size_of_len w buf bs hwk, hgt]
                  have hequiv1 : fillEquivList
                      (cur.set i (a.setInnerArg (generateSize bufArg.innerArg w.typ bs)))
                      args0 := by
                    refine fillEquivList_set hequiv i _ ?_
                    intro b hb
                    rw [ha0] at hb
                    obtain rfl : a0 = b := Option.some_inj.mp hb
                    exact fillEquiv_trans
                      (fillEquiv_setInnerArg a w _ hwi buf bs hwk hgt hgs) haeq
                  obtain ⟨hoeq, horun⟩ :=
                    fillSizes_idem am ps args0 k _ (i + 1) out hequiv1 h
                  refine ⟨hoeq, ?_⟩
                  have hoi : out[i]? =
                      some (a.setInnerArg (generateSize bufArg.innerArg w.typ bs)) := by
                    rw [fillSizes_lt am ps k _ (i + 1) out h i (by omega),
                      List.getElem?_set_self hleni]
                  have hgkp : (generateSize bufArg.innerArg w.typ bs).typ.kind ≠
                      .pointer := by
                    rw [hgk]
                    intro hc
                    cases hc
                  have hbi : (a.setInnerArg (generateSize bufArg.innerArg w.typ bs)).innerArg
                      = some (generateSize bufArg.innerArg w.typ bs) :=
                    Arg.innerArg_setInnerArg a w _ hwi hgkp
                  have hlj : j < out.length := by
                    have hjc : j < cur.length := by
                      by_contra hge
                      rw [List.getElem?_eq_none (by omega)] at hbj
                      exact absurd hbj (by simp)
                    rw [hoeq.1, ← hequiv.1]
                    exact hjc
                  obtain ⟨bufArg2, hbj2⟩ : ∃ b2, out[j]? = some b2 :=
                    ⟨_, List.getElem?_eq_getElem hlj⟩
                  obtain ⟨b0, hb0, hb0eq⟩ := fillEquivList_get hoeq j bufArg2 hbj2
                  obtain ⟨c0, hc0, hc0eq⟩ := fillEquivList_get hequiv j bufArg hbj
                  rw [hb0] at hc0
                  obtain rfl : b0 = c0 := Option.some_inj.mp hc0
                  have hmap : bufArg2.innerArg.map gObs = bufArg.innerArg.map gObs :=
                    hb0eq.2.2.trans hc0eq.2.2.symm
                  have hgen : generateSize bufArg2.innerArg
                      (generateSize bufArg.innerArg w.typ bs).typ bs =
                      generateSize bufArg.innerArg w.typ bs := by
                    rw [hgt]
                    exact gObs_generateSizeOpt _ _ w.typ bs hmap
                  have hso := fillStep_of_named am ps out i _
                    (generateSize bufArg.innerArg w.typ bs) buf bs j bufArg2 hoi hbi hgk
                    hpar hamb hbj2
                  rw [hgen, Arg.setInnerArg_setInnerArg a w _ _ hwi hgkp,
                    List.set_getElem?_self out i _ hoi] at hso
                  unfold fillSizes
                  rw [hso]
                  exact horun
          · have hnl : ∀ (buf : String) (bs : Nat), w.typ.kind ≠ .len buf bs := by
              push_neg at hlenk
              exact hlenk
            obtain rfl : cur = cur1 := by
              rw [fillStep_skip_notlen am ps cur i a w hci hwi hnl] at hstep
              exact Option.some_inj.mp hstep
            obtain ⟨hoeq, horun⟩ := fillSizes_idem am ps args0 k cur (i + 1) out hequiv h
            refine ⟨hoeq, ?_⟩
            have hlo : i < out.length := by rw [hoeq.1, ← hequiv.1]; exact hleni
            obtain ⟨b, hbo⟩ : ∃ b, out[i]? = some b := ⟨_, List.getElem?_eq_getElem hlo⟩
            have hbeq := hoeq.2 i b a0 hbo ha0
            have hmap : b.innerArg.map gObs = a.innerArg.map gObs :=
              hbeq.2.2.trans haeq.2.2.symm
            rw [hwi] at hmap
            cases hbw : b.innerArg with
            | none =>
              rw [hbw] at hmap
              exact absurd hmap (by simp)
            | some wb =>
              rw [hbw] at hmap
              have hgg : gObs wb = gObs w := Option.some_inj.mp (by simpa using hmap)
              have hwbtyp : wb.typ = w.typ := congrArg Prod.fst hgg
              have hnlb : ∀ (buf : String) (bs : Nat), wb.typ.kind ≠ .len buf bs := by
                intro buf bs hc
                rw [hwbtyp] at hc
                exact hnl buf bs hc
              unfold fillSizes
              rw [fillStep_skip_notlen am ps out i b wb hbo hbw hnlb]
              exact horun

theorem fillEquivList_cons {x y : Arg} {xs ys : List Arg}
    (h : fillEquivList (x :: xs) (y :: ys)) : fillEquiv x y ∧ fillEquivList xs ys := by
  refine ⟨h.2 0 x y (by simp) (by simp), ?_, ?_⟩
  · simpa using h.1
  · intro j a b ha hb
    exact h.2 (j + 1) a b (by simpa using ha) (by simpa using hb)

/-- `buildArgsMap` depends only on the type descriptors of the fields, which
`fillEquivList` preserves. -/
theorem buildArgsMap_congr : ∀ (xs ys : List Arg), fillEquivList xs ys →
    ∀ i, buildArgsMap xs i = buildArgsMap ys i
  | [], [], _, _ => rfl
  | [], _ :: _, h, _ => absurd h.1 (by simp)
  | _ :: _, [], h, _ => absurd h.1 (by simp)
  | x :: xs, y :: ys, h, i => by
    obtain ⟨hxy, htl⟩ := fillEquivList_cons h
    unfold buildArgsMap
    rw [hxy.1, buildArgsMap_congr xs ys htl (i + 1)]

/-- The struct byte total depends only on the per-field sizes, which
`fillEquivList` preserves. -/
theorem sizeList_congr : ∀ (xs ys : List Arg), fillEquivList xs ys →
    Arg.sizeList xs = Arg.sizeList ys
  | [], [], _ => rfl
  | [], _ :: _, h => absurd h.1 (by simp)
  | _ :: _, [], h => absurd h.1 (by simp)
  | x :: xs, y :: ys, h => by
    obtain ⟨hxy, htl⟩ := fillEquivList_cons h
    unfold Arg.sizeList
    rw [hxy.2.1, sizeList_congr xs ys htl]

/-- C7: assignSizes is idempotent - running it on a field sequence it has
already filled rewrites every length field to the value it already holds, so
the sequence is unchanged: if `assignSizes args` succeeds with result `out`,
then `assignSizes out` succeeds and returns `out` itself. -/
theorem c7_assign_sizes_idem (args out : List Arg) (h : assignSizes args = some out) :
    assignSizes out = some out := by
  unfold assignSizes at h
  obtain ⟨hoeq, horun⟩ := fillSizes_idem (buildArgsMap args 0) (Arg.sizeList args) args
    args.length args 0 out (fillEquivList_refl args) h
  unfold assignSizes
  rw [buildArgsMap_congr out args hoeq 0, sizeList_congr out args hoeq, hoeq.1]
  exact horun

/-- Concrete idempotence run: filling `c7Fields` yields `c7Out`, and filling
`c7Out` again returns it unchanged. -/
theorem c7_assign_sizes_idem_witness :
    assignSizes c7Fields = some c7Out ∧ assignSizes c7Out = some c7Out :=
  ⟨by rfl, c7_assign_sizes_idem c7Fields c7Out (by rfl)⟩

end Syz